import Mathlib

/-! # Project_Progra3: search engine over a movie catalogue

A shallow embedding of `src/main.cpp` (the generic `Trie`, `IndiceGenerico`,
`SistemaPuntuacion` and the indexing and query functions of `GestorPeliculas`)
together with theorems about it.

Modelling conventions.

* `std::string` is a `List Char`; a `char` is a `Char` (a byte is the code point
  of the same value).  `::tolower` and `isspace` are those of the "C" locale.
* A `Pelicula*` is the position of the record in `GestorPeliculas::peliculas`
  (a `Nat`): the vector is never resized after loading, so positions and
  addresses are in bijection.  The generic classes are modelled over an arbitrary
  type `α` of references.
* `std::unordered_map<K, V>` is a finite map, modelled as `K → Option V`.
* `double relevancia` only ever holds values `3 * a + b + 10 + 5` with `a`, `b`
  occurrence counts; these are natural numbers far below `2 ^ 53`, on which
  `double` arithmetic is exact, so the field is modelled as a `Nat`.
* Locks (`lock_guard`) make every method atomic; a method is a function from
  state to state.
-/

namespace Progra3

/-! ## Characters and strings -/

/-- The function `::tolower` of the "C" locale: `A`..`Z` go to `a`..`z`, every other
character is left alone. -/
def tolower (c : Char) : Char :=
  if 65 ≤ c.toNat ∧ c.toNat ≤ 90 then Char.ofNat (c.toNat + 32) else c

/-- The private helper `toLower` of `Trie` and `SistemaPuntuacion`:
`transform(begin, end, begin, ::tolower)`. -/
def toLower (str : List Char) : List Char :=
  str.map tolower

/-- The function `isspace` of the "C" locale: space, `\t`, `\n`, `\v`, `\f`, `\r`. -/
def isspace (c : Char) : Bool :=
  c.toNat == 32 || (9 ≤ c.toNat && c.toNat ≤ 13)

/-! ## Data model -/

/-- The record `struct Pelicula`. -/
structure Pelicula where
  titulo : List Char
  sinopsis : List Char
  tags : List (List Char)
  split : List Char
  fuente_sinopsis : List Char
  relevancia : Nat := 0
deriving DecidableEq, Repr

/-- The class `TrieNode<T>`: `children`, `elementos`, `esFinDePalabra`. -/
inductive TrieNode (α : Type) where
  | mk (children : Char → Option (TrieNode α)) (elementos : List α)
      (esFinDePalabra : Bool) : TrieNode α

namespace TrieNode

variable {α : Type}

/-- The field `children`. -/
def children : TrieNode α → Char → Option (TrieNode α)
  | mk ch _ _ => ch

/-- The field `elementos`. -/
def elementos : TrieNode α → List α
  | mk _ el _ => el

/-- The field `esFinDePalabra`. -/
def esFinDePalabra : TrieNode α → Bool
  | mk _ _ fin => fin

/-- A freshly constructed node, `make_unique<TrieNode<T>>()`. -/
def nuevo : TrieNode α :=
  mk (fun _ => none) [] false

/-- The body of the loop of `Trie::insertar` followed by the final assignment,
started at node `actual` with the characters still to be consumed:
for each `c`, create `children[c]` when absent, move to it, and
`push_back(elemento)` there; at the end set `esFinDePalabra`. -/
def insertarDesde (elemento : α) : List Char → TrieNode α → TrieNode α
  | [], mk ch el _ => mk ch el true
  | c :: cs, mk ch el fin =>
    let hijo : TrieNode α := (ch c).getD nuevo
    let hijo1 : TrieNode α := mk hijo.children (hijo.elementos ++ [elemento]) hijo.esFinDePalabra
    mk (fun k => if k = c then some (insertarDesde elemento cs hijo1) else ch k) el fin

/-- The walk shared by `buscarPorPrefijo` and `buscarPalabraExacta`: follow the
characters from `actual`; `none` is the early `return {}` on an absent child. -/
def descender : List Char → TrieNode α → Option (TrieNode α)
  | [], actual => some actual
  | c :: cs, actual =>
    match actual.children c with
    | none => none
    | some hijo => descender cs hijo

end TrieNode

/-- The class `Trie<T>`; its only data member is `raiz`. -/
structure Trie (α : Type) where
  raiz : TrieNode α

namespace Trie

variable {α : Type}

/-- The constructor `Trie()`: a root without children. -/
def vacio : Trie α :=
  ⟨TrieNode.nuevo⟩

/-- The method `Trie::insertar(palabra, elemento)`. -/
def insertar (t : Trie α) (palabra : List Char) (elemento : α) : Trie α :=
  ⟨TrieNode.insertarDesde elemento (toLower palabra) t.raiz⟩

/-- The method `Trie::buscarPorPrefijo(prefijo)`. -/
def buscarPorPrefijo (t : Trie α) (prefijo : List Char) : List α :=
  match TrieNode.descender (toLower prefijo) t.raiz with
  | none => []
  | some actual => actual.elementos

/-- The method `Trie::buscarPalabraExacta(palabra)`. -/
def buscarPalabraExacta (t : Trie α) (palabra : List Char) : List α :=
  match TrieNode.descender (toLower palabra) t.raiz with
  | none => []
  | some actual => if actual.esFinDePalabra then actual.elementos else []

/-- A sequence of `insertar` calls, in program order, from the empty trie. -/
def deLlamadas (llamadas : List (List Char × α)) : Trie α :=
  llamadas.foldl (fun t ll => t.insertar ll.1 ll.2) vacio

end Trie

/-- The class `IndiceGenerico<T, KeyType>`; its only data member is the map `indice`. -/
structure IndiceGenerico (α : Type) (K : Type) where
  indice : K → Option (List α)

namespace IndiceGenerico

variable {α K : Type} [DecidableEq K]

/-- A default-constructed index: an empty map. -/
def vacio : IndiceGenerico α K :=
  ⟨fun _ => none⟩

/-- The method `IndiceGenerico::agregar`: `indice[clave].push_back(elemento)`, where
`operator[]` first creates an empty bucket when the key is absent. -/
def agregar (ix : IndiceGenerico α K) (clave : K) (elemento : α) : IndiceGenerico α K :=
  ⟨fun k => if k = clave then some ((ix.indice clave).getD [] ++ [elemento]) else ix.indice k⟩

/-- The method `IndiceGenerico::buscar`: the bucket of `clave`, or an empty vector. -/
def buscar (ix : IndiceGenerico α K) (clave : K) : List α :=
  match ix.indice clave with
  | some bucket => bucket
  | none => []

/-- A sequence of `agregar` calls, in program order, from the empty index. -/
def deLlamadas (llamadas : List (K × α)) : IndiceGenerico α K :=
  llamadas.foldl (fun ix ll => ix.agregar ll.1 ll.2) vacio

end IndiceGenerico

/-! ## Scoring -/

/-- The scan of `std::string::find` over the suffix that starts at position `i`:
the first position at or after `i` where `patron` begins. -/
def findDesde (patron : List Char) : List Char → Nat → Option Nat
  | [], i => if patron = [] then some i else none
  | c :: cs, i => if patron <+: c :: cs then some i else findDesde patron cs (i + 1)

/-- The call `texto.find(patron, pos)`; `none` is `string::npos`.  A start position
beyond the end of the text finds nothing. -/
def find (texto patron : List Char) (pos : Nat) : Option Nat :=
  if pos ≤ texto.length then findDesde patron (texto.drop pos) pos else none

/-- The `while` loop of `SistemaPuntuacion::contarOcurrencias` with its two local
variables `pos` and `count`.  The loop has no bound of its own, so the model
takes the number of iterations it may run; `none` means that the loop was
still running when they were used up. -/
def contarOcurrenciasBucle (texto patron : List Char) : Nat → Nat → Nat → Option Nat
  | 0, _, _ => none
  | fuel + 1, pos, count =>
    match find texto patron pos with
    | none => some count
    | some p => contarOcurrenciasBucle texto patron fuel (p + patron.length) (count + 1)

/-- The function `SistemaPuntuacion::contarOcurrencias`. -/
def contarOcurrencias (fuel : Nat) (texto patron : List Char) : Option Nat :=
  contarOcurrenciasBucle texto patron fuel 0 0

/-- The tag loop of `calcularPuntuacion`: the first tag equal to the term adds 5
and leaves the loop (`break`). -/
def bonusTags (terminoLower : List Char) : List (List Char) → Nat → Nat
  | [], puntuacion => puntuacion
  | tag :: resto, puntuacion =>
    if toLower tag = terminoLower then puntuacion + 5
    else bonusTags terminoLower resto puntuacion

/-- The function `SistemaPuntuacion::calcularPuntuacion`.  The parameter
`totalPeliculas` is not used by the source either. -/
def calcularPuntuacion (fuel : Nat) (pelicula : Pelicula) (termino : List Char)
    (_totalPeliculas : Nat) : Option Nat :=
  let terminoLower := toLower termino
  let tituloLower := toLower pelicula.titulo
  match contarOcurrencias fuel tituloLower terminoLower with
  | none => none
  | some frecuenciaTitulo =>
    let puntuacion1 := 0 + frecuenciaTitulo * 3
    let sinopsisLower := toLower pelicula.sinopsis
    match contarOcurrencias fuel sinopsisLower terminoLower with
    | none => none
    | some frecuenciaSinopsis =>
      let puntuacion2 := puntuacion1 + frecuenciaSinopsis * 1
      let puntuacion3 := if tituloLower = terminoLower then puntuacion2 + 10 else puntuacion2
      some (bonusTags terminoLower pelicula.tags puntuacion3)

/-- The scan behind `occurrences`, following the words of the specification
("each match advances the search position past the matched span"): `salto` is
the number of characters of the last matched span still to be passed. -/
def occurrencesDesde (term : List Char) : List Char → Nat → Nat
  | [], _ => 0
  | _ :: cs, salto + 1 => occurrencesDesde term cs salto
  | c :: cs, 0 =>
    if term <+: c :: cs then 1 + occurrencesDesde term cs (term.length - 1)
    else occurrencesDesde term cs 0

/-- The quantity `occurrences(term, text)` of the specification: the number of
non-overlapping matches of `term` in `text`, scanning from the left. -/
def occurrences (term text : List Char) : Nat :=
  occurrencesDesde term text 0

/-- The score formula as the specification writes it. -/
def scoreSpec (pelicula : Pelicula) (termino : List Char) : Nat :=
  3 * occurrences (toLower termino) (toLower pelicula.titulo)
    + 1 * occurrences (toLower termino) (toLower pelicula.sinopsis)
    + (if toLower pelicula.titulo = toLower termino then 10 else 0)
    + (if ∃ tag ∈ pelicula.tags, toLower tag = toLower termino then 5 else 0)

/-! ## The manager: text cleaning, indexing, queries -/

/-- The loop `while (stream >> palabra)` over an `istringstream`: each extraction
skips whitespace and then reads up to the next whitespace or the end; `actual` is
the word being read. -/
def palabrasDesde : List Char → List Char → List (List Char)
  | [], actual => if actual = [] then [] else [actual]
  | c :: cs, actual =>
    if isspace c then
      (if actual = [] then palabrasDesde cs [] else actual :: palabrasDesde cs [])
    else palabrasDesde cs (actual ++ [c])

/-- The words that `while (stream >> palabra)` extracts from `texto`, in order. -/
def palabras (texto : List Char) : List (List Char) :=
  palabrasDesde texto []

/-- The function `GestorPeliculas::limpiarTexto`: erase from the beginning up to the
first non-space character, then from just after the last non-space character to
the end. -/
def limpiarTexto (texto : List Char) : List Char :=
  let resultado := texto.dropWhile isspace
  (resultado.reverse.dropWhile isspace).reverse

/-- The function `GestorPeliculas::normalizarTag`. -/
def normalizarTag (tag : List Char) : List Char :=
  (limpiarTexto tag).map tolower

/-- The data members of `GestorPeliculas`.  References into `peliculas` held by
the three indexes are positions. -/
structure GestorPeliculas where
  peliculas : List Pelicula
  indiceTitulos : Trie Nat
  indiceSinopsis : Trie Nat
  indiceTags : IndiceGenerico Nat (List Char)

/-- The state after `leerCSV` and before indexing: the records and three empty
indexes. -/
def sinIndexar (peliculas : List Pelicula) : GestorPeliculas :=
  ⟨peliculas, Trie.vacio, Trie.vacio, IndiceGenerico.vacio⟩

/-- The function `GestorPeliculas::indexarPelicula(peliculas[j])`.  The builder only
calls it with `j < peliculas.size()`; for other `j` the model does nothing. -/
def indexarPelicula (g : GestorPeliculas) (j : Nat) : GestorPeliculas :=
  match g.peliculas[j]? with
  | none => g
  | some pelicula =>
    { g with
      indiceTitulos :=
        (palabras pelicula.titulo).foldl (fun t palabra => t.insertar palabra j) g.indiceTitulos
      indiceSinopsis :=
        (palabras pelicula.sinopsis).foldl (fun t palabra => t.insertar palabra j)
          g.indiceSinopsis
      indiceTags := pelicula.tags.foldl (fun ix tag => ix.agregar tag j) g.indiceTags }

/-- The index state after `indexarPelicula` has run for the records at positions
`js`, one after the other in that order. -/
def indexarEnOrden (peliculas : List Pelicula) (js : List Nat) : GestorPeliculas :=
  js.foldl indexarPelicula (sinIndexar peliculas)

/-- The build with a single worker: records `0`, `1`, ... in order. -/
def construir (peliculas : List Pelicula) : GestorPeliculas :=
  indexarEnOrden peliculas (List.range peliculas.length)

/-- What the C++ standard leaves open in `buscarPorTituloOSinopsis`: the order in
which `std::unordered_set` is iterated, and with it the order in which `std::sort`
(not stable) leaves records of equal score.  `iterar l` is the order in which the
set holding the distinct references `l` is enumerated; it is some rearrangement
of `l`. -/
structure Plataforma where
  iterar : List Nat → List Nat
  iterar_perm : ∀ l, (iterar l).Perm l

/-- A platform whose sets enumerate their elements in order of first insertion. -/
def plataformaSimple : Plataforma :=
  ⟨fun l => l, fun l => List.Perm.refl l⟩

/-- One insertion step of `sort`: `x` goes before the first element that `antes`
does not put before it. -/
def insertarOrdenado {α : Type} (antes : α → α → Bool) (x : α) : List α → List α
  | [] => [x]
  | y :: ys => if antes y x then y :: insertarOrdenado antes x ys else x :: y :: ys

/-- The call `std::sort(first, last, antes)`, as insertion sort.  It leaves an
already sorted range as it is, so together with `Plataforma.iterar` every outcome
the standard allows is covered. -/
def sort {α : Type} (antes : α → α → Bool) (l : List α) : List α :=
  l.foldr (insertarOrdenado antes) []

/-- The value read by `a->relevancia` for the reference `a`. -/
def relevanciaDe (peliculas : List Pelicula) (a : Nat) : Nat :=
  match peliculas[a]? with
  | some pelicula => pelicula.relevancia
  | none => 0

/-- The loop `for (auto* pelicula : resultados) pelicula->relevancia = ...` of
`buscarPorTituloOSinopsis`.  A reference that is not a position of the store is a
dangling pointer; the model stops with `none` there, as it does when
`calcularPuntuacion` does not return. -/
def puntuar (fuel : Nat) (busqueda : List Char) (total : Nat) :
    List Nat → List Pelicula → Option (List Pelicula)
  | [], peliculas => some peliculas
  | i :: resto, peliculas =>
    match peliculas[i]? with
    | none => none
    | some pelicula =>
      match calcularPuntuacion fuel pelicula busqueda total with
      | none => none
      | some r =>
        puntuar fuel busqueda total resto (peliculas.set i { pelicula with relevancia := r })

/-- The first half of `buscarPorTituloOSinopsis`: the two prefix lookups, the
`unordered_set` built from the title results into which the synopsis results are
inserted, and the vector `resultados` filled by iterating over that set. -/
def resultadosUnicos (pl : Plataforma) (g : GestorPeliculas) (busqueda : List Char) :
    List Nat :=
  let resultadosTitulos := g.indiceTitulos.buscarPorPrefijo busqueda
  let resultadosSinopsis := g.indiceSinopsis.buscarPorPrefijo busqueda
  pl.iterar (resultadosTitulos ++ resultadosSinopsis).dedup

/-- The function `GestorPeliculas::buscarPorTituloOSinopsis`: the returned
references and the state it leaves (it writes `relevancia`).  The two `async`
lookups only read and are joined before anything else happens. -/
def buscarPorTituloOSinopsis (pl : Plataforma) (fuel : Nat) (g : GestorPeliculas)
    (busqueda : List Char) : Option (List Nat × GestorPeliculas) :=
  let resultados := resultadosUnicos pl g busqueda
  match puntuar fuel busqueda g.peliculas.length resultados g.peliculas with
  | none => none
  | some peliculas1 =>
    some (sort (fun a b => decide (relevanciaDe peliculas1 a > relevanciaDe peliculas1 b))
        resultados,
      { g with peliculas := peliculas1 })

/-- The function `GestorPeliculas::buscarPorTag`; it changes no state. -/
def buscarPorTag (g : GestorPeliculas) (tag : List Char) : List Nat :=
  let tagNormalizado := normalizarTag tag
  g.indiceTags.buscar tagNormalizado

/-- A number of loop iterations that is enough for `contarOcurrencias` on every
title and synopsis of the store: one more than the longest of them. -/
def cotaCombustible : List Pelicula → Nat
  | [] => 0
  | p :: ps => max (max p.titulo.length p.sinopsis.length + 1) (cotaCombustible ps)

/-- A built index over the store `ps`: any state reached from the unindexed store
by `insertar` and `agregar` calls, in any order, whose references are positions
of the store.  Every interleaving of the worker threads of
`indexarPeliculasConcurrente` produces such a state. -/
inductive Construido (ps : List Pelicula) : GestorPeliculas → Prop
  | inicio : Construido ps (sinIndexar ps)
  | titulo {g : GestorPeliculas} (palabra : List Char) (j : Nat) :
      Construido ps g → j < ps.length →
      Construido ps { g with indiceTitulos := g.indiceTitulos.insertar palabra j }
  | sinopsis {g : GestorPeliculas} (palabra : List Char) (j : Nat) :
      Construido ps g → j < ps.length →
      Construido ps { g with indiceSinopsis := g.indiceSinopsis.insertar palabra j }
  | tag {g : GestorPeliculas} (tag : List Char) (j : Nat) :
      Construido ps g → j < ps.length →
      Construido ps { g with indiceTags := g.indiceTags.agregar tag j }

/-- The `insertar` calls that `indexarPelicula(peliculas[j])` makes on the title
trie, in program order. -/
def llamadasTitulo (ps : List Pelicula) (j : Nat) : List (List Char × Nat) :=
  match ps[j]? with
  | none => []
  | some pelicula => (palabras pelicula.titulo).map (fun palabra => (palabra, j))

/-- The `insertar` calls that `indexarPelicula(peliculas[j])` makes on the synopsis
trie, in program order. -/
def llamadasSinopsis (ps : List Pelicula) (j : Nat) : List (List Char × Nat) :=
  match ps[j]? with
  | none => []
  | some pelicula => (palabras pelicula.sinopsis).map (fun palabra => (palabra, j))

/-- The `agregar` calls that `indexarPelicula(peliculas[j])` makes on the tag index,
in program order. -/
def llamadasTags (ps : List Pelicula) (j : Nat) : List (List Char × Nat) :=
  match ps[j]? with
  | none => []
  | some pelicula => pelicula.tags.map (fun tag => (tag, j))

/-- The state `g` holds the store `ps` and its three indexes are the result of the
call sequences `lt`, `ls` and `lk`. -/
def Rastro (ps : List Pelicula) (g : GestorPeliculas)
    (lt ls lk : List (List Char × Nat)) : Prop :=
  g.peliculas = ps ∧ g.indiceTitulos = Trie.deLlamadas lt ∧
    g.indiceSinopsis = Trie.deLlamadas ls ∧ g.indiceTags = IndiceGenerico.deLlamadas lk

/-- The record `p` after the scoring loop has stored its score for `busqueda`. -/
def conPuntuacion (busqueda : List Char) (p : Pelicula) : Pelicula :=
  { p with relevancia := scoreSpec p busqueda }

/-- The two records of the scenario of the specification. -/
def peliculasEjemplo : List Pelicula :=
  [ { titulo := "Love Story".toList, sinopsis := "a love tale".toList,
      tags := ["romance".toList], split := [], fuente_sinopsis := [] },
    { titulo := "War".toList, sinopsis := "love during war".toList,
      tags := ["drama".toList, "romance".toList], split := [], fuente_sinopsis := [] } ]

/-! ## Ingestion of the tag field -/

/-- The loop `while (getline(ss, tag, delim))` over a `stringstream`: each call
reads up to and including the next `delim` and yields what came before it; a call
that finds the stream at its end yields nothing and ends the loop.  `actual` is
the piece being read. -/
def getlineTodas (delim : Char) : List Char → List Char → List (List Char)
  | [], actual => if actual = [] then [] else [actual]
  | c :: cs, actual =>
    if c = delim then actual :: getlineTodas delim cs []
    else getlineTodas delim cs (actual ++ [c])

/-- The body of the loop of `procesarTags` over the pieces read by `getline`: trim
the piece and, unless it is empty, append its normalised form. -/
def procesarTagsBucle : List (List Char) → List (List Char)
  | [] => []
  | pieza :: resto =>
    let tag := limpiarTexto pieza
    if tag = [] then procesarTagsBucle resto
    else normalizarTag tag :: procesarTagsBucle resto

/-- The function `GestorPeliculas::procesarTags`. -/
def procesarTags (tags_str : List Char) : List (List Char) :=
  procesarTagsBucle (getlineTodas ',' tags_str [])

/-! ## The concurrent build -/

/-- The bounds `inicio` and `fin` computed in iteration `i` of the loop of
`indexarPeliculasConcurrente`. -/
def rangoHilo (total numHilos peliculasPorHilo i : Nat) : Nat × Nat :=
  let inicio := i * peliculasPorHilo
  let fin := if i = numHilos - 1 then total else (i + 1) * peliculasPorHilo
  (inicio, fin)

/-- The ranges of the worker threads of `indexarPeliculasConcurrente`, in the order
the threads are created, for `total` records and `numHilos` as returned by
`thread::hardware_concurrency()`.  With `numHilos = 0` the division
`peliculas.size() / numHilos` divides by zero: the function does not get past
it, which is `none`. -/
def rangos (total numHilos : Nat) : Option (List (Nat × Nat)) :=
  if numHilos = 0 then none
  else
    let peliculasPorHilo := total / numHilos
    some ((List.range numHilos).map (rangoHilo total numHilos peliculasPorHilo))

/-- The body of one worker thread: `indexarPelicula(peliculas[j])` for `j` from
`inicio` up to but not including `fin`. -/
def trabajoHilo (g : GestorPeliculas) (r : Nat × Nat) : GestorPeliculas :=
  (List.range' r.1 (r.2 - r.1)).foldl indexarPelicula g

/-- The function `GestorPeliculas::indexarPeliculasConcurrente` under the schedule in
which every worker finishes before the next one starts.  The other schedules
are the interleavings described by `Intercalado`. -/
def indexarPeliculasConcurrente (numHilos : Nat) (g : GestorPeliculas) :
    Option GestorPeliculas :=
  match rangos g.peliculas.length numHilos with
  | none => none
  | some rs => some (rs.foldl trabajoHilo g)

/-- One atomic step of the build: a call of `insertar` on the title trie or on the
synopsis trie, or a call of `agregar` on the tag index, each under the lock of
its structure. -/
inductive Op where
  | titulo (palabra : List Char) (j : Nat)
  | sinopsis (palabra : List Char) (j : Nat)
  | tag (tag : List Char) (j : Nat)
deriving DecidableEq

/-- The effect of one atomic step on the state. -/
def aplicarOp (g : GestorPeliculas) : Op → GestorPeliculas
  | Op.titulo palabra j => { g with indiceTitulos := g.indiceTitulos.insertar palabra j }
  | Op.sinopsis palabra j => { g with indiceSinopsis := g.indiceSinopsis.insertar palabra j }
  | Op.tag tag j => { g with indiceTags := g.indiceTags.agregar tag j }

/-- The state after the atomic steps `ops`, in that order, on the unindexed store. -/
def aplicarOps (ps : List Pelicula) (ops : List Op) : GestorPeliculas :=
  ops.foldl aplicarOp (sinIndexar ps)

/-- The atomic steps of `indexarPelicula(peliculas[j])` in program order. -/
def opsDe (ps : List Pelicula) (j : Nat) : List Op :=
  (llamadasTitulo ps j).map (fun ll => Op.titulo ll.1 ll.2) ++
    (llamadasSinopsis ps j).map (fun ll => Op.sinopsis ll.1 ll.2) ++
    (llamadasTags ps j).map (fun ll => Op.tag ll.1 ll.2)

/-- The atomic steps of the worker thread with range `r`, in program order. -/
def opsHilo (ps : List Pelicula) (r : Nat × Nat) : List Op :=
  (List.range' r.1 (r.2 - r.1)).flatMap (opsDe ps)

/-- The step sequences of the worker threads that `indexarPeliculasConcurrente`
starts for `numHilos`. -/
def hilosDe (ps : List Pelicula) (numHilos : Nat) : Option (List (List Op)) :=
  match rangos ps.length numHilos with
  | none => none
  | some rs => some (rs.map (opsHilo ps))

/-- The list `ops` is an interleaving of the step sequences `hilos`: at each moment
some thread performs its next step, until every thread has finished. -/
inductive Intercalado : List (List Op) → List Op → Prop
  | fin (hilos : List (List Op)) : (∀ h ∈ hilos, h = []) → Intercalado hilos []
  | paso (antes despues : List (List Op)) (op : Op) (resto ops : List Op) :
      Intercalado (antes ++ resto :: despues) ops →
      Intercalado (antes ++ (op :: resto) :: despues) (op :: ops)

/-- The reference that an atomic step stores. -/
def Op.ref : Op → Nat
  | Op.titulo _ j => j
  | Op.sinopsis _ j => j
  | Op.tag _ j => j

/-- The calls on the title trie among the atomic steps `ops`, in order. -/
def llamadasTituloDe (ops : List Op) : List (List Char × Nat) :=
  ops.filterMap (fun op =>
    match op with
    | Op.titulo palabra j => some (palabra, j)
    | _ => none)

/-- The calls on the synopsis trie among the atomic steps `ops`, in order. -/
def llamadasSinopsisDe (ops : List Op) : List (List Char × Nat) :=
  ops.filterMap (fun op =>
    match op with
    | Op.sinopsis palabra j => some (palabra, j)
    | _ => none)

/-- The calls on the tag index among the atomic steps `ops`, in order. -/
def llamadasTagsDe (ops : List Op) : List (List Char × Nat) :=
  ops.filterMap (fun op =>
    match op with
    | Op.tag tag j => some (tag, j)
    | _ => none)

/-- All the atomic steps of the build of the store `ps`, in the order of the build
with a single worker. -/
def opsTodas (ps : List Pelicula) : List Op :=
  (List.range ps.length).flatMap (opsDe ps)

/-- The string has neither leading nor trailing whitespace. -/
def Recortado (t : List Char) : Prop :=
  (∀ c, t.head? = some c → isspace c = false) ∧
    (∀ c, t.getLast? = some c → isspace c = false)

/-! ## Sequences of queries -/

/-- A query issued at the interface of `GestorPeliculas`. -/
inductive Consulta where
  | texto (busqueda : List Char)
  | tag (tag : List Char)
deriving DecidableEq

/-- The state after the queries `qs`, one after the other: a text query leaves the
state `buscarPorTituloOSinopsis` leaves, a tag query leaves the state alone. -/
def ejecutar (pl : Plataforma) (fuel : Nat) : GestorPeliculas → List Consulta →
    Option GestorPeliculas
  | g, [] => some g
  | g, Consulta.texto busqueda :: qs =>
    match buscarPorTituloOSinopsis pl fuel g busqueda with
    | none => none
    | some r => ejecutar pl fuel r.2 qs
  | g, Consulta.tag _ :: qs => ejecutar pl fuel g qs

/-! ## Non-overlapping occurrences -/

/-- The positions `sel` are positions at which `pat` occurs in `text`, and no two
of the occurrences overlap: of any two, one ends at or before the start of the
other. -/
def NoSolapadas (pat text : List Char) (sel : List Nat) : Prop :=
  (∀ i ∈ sel, pat <+: text.drop i) ∧
    sel.Pairwise (fun i j => i + pat.length ≤ j ∨ j + pat.length ≤ i)

/-! ## Facts about the trie walk -/

namespace TrieNode

variable {α : Type}

/-- The reference list found at the end of path `p` from `n`, empty when the path
leaves the trie. -/
def elementosEn (p : List Char) (n : TrieNode α) : List α :=
  match descender p n with
  | none => []
  | some a => a.elementos

/-- The terminal flag found at the end of path `p` from `n`. -/
def finEn (p : List Char) (n : TrieNode α) : Bool :=
  match descender p n with
  | none => false
  | some a => a.esFinDePalabra

/-- Whether the path `p` from `n` stays inside the trie, that is, leads to a node. -/
def existeEn (p : List Char) (n : TrieNode α) : Bool :=
  match descender p n with
  | none => false
  | some _ => true

theorem children_mk (ch : Char → Option (TrieNode α)) (el : List α) (fin : Bool) :
    (mk ch el fin).children = ch := rfl

theorem elementos_mk (ch : Char → Option (TrieNode α)) (el : List α) (fin : Bool) :
    (mk ch el fin).elementos = el := rfl

theorem esFinDePalabra_mk (ch : Char → Option (TrieNode α)) (el : List α) (fin : Bool) :
    (mk ch el fin).esFinDePalabra = fin := rfl

theorem elementosEn_nil (n : TrieNode α) : elementosEn [] n = n.elementos := rfl

theorem elementosEn_cons (c : Char) (cs : List Char) (n : TrieNode α) :
    elementosEn (c :: cs) n =
      match n.children c with
      | none => []
      | some h => elementosEn cs h := by
  unfold elementosEn
  simp only [descender]
  cases n.children c <;> rfl

theorem elementosEn_nuevo (p : List Char) : elementosEn p (nuevo : TrieNode α) = [] := by
  cases p with
  | nil => rfl
  | cons c cs => rfl

theorem elementosEn_push (p : List Char) (n : TrieNode α) (e : α) :
    elementosEn p (mk n.children (n.elementos ++ [e]) n.esFinDePalabra) =
      elementosEn p n ++ (if p = [] then [e] else []) := by
  cases p with
  | nil => simp [elementosEn_nil, elementos_mk]
  | cons c cs => simp [elementosEn_cons, children_mk]

/-- Inserting word `w` appends `e` to the list of exactly the nodes reached by the
non-empty prefixes of `w`. -/
theorem elementosEn_insertarDesde (e : α) (w : List Char) :
    ∀ (p : List Char) (n : TrieNode α),
      elementosEn p (insertarDesde e w n) =
        elementosEn p n ++ (if p ≠ [] ∧ p <+: w then [e] else []) := by
  induction w with
  | nil =>
    intro p n
    cases n with
    | mk ch el fin =>
      cases p with
      | nil => simp [insertarDesde, elementosEn_nil, elementos_mk]
      | cons c cs => simp [insertarDesde, elementosEn_cons, children_mk]
  | cons c cs ih =>
    intro p n
    cases n with
    | mk ch el fin =>
      cases p with
      | nil => simp [insertarDesde, elementosEn_nil, elementos_mk]
      | cons d ds =>
        by_cases hdc : d = c
        · subst hdc
          simp only [insertarDesde, elementosEn_cons, children_mk, if_true, ih, elementosEn_push]
          cases hch : ch d with
          | none =>
            by_cases hds : ds = []
            · simp [hds, elementosEn_nuevo]
            · simp [hds, elementosEn_nuevo, List.cons_prefix_cons]
          | some h =>
            by_cases hds : ds = []
            · simp [hds]
            · simp [hds, List.cons_prefix_cons]
        · simp [insertarDesde, elementosEn_cons, children_mk, hdc, List.cons_prefix_cons]

theorem finEn_nil (n : TrieNode α) : finEn [] n = n.esFinDePalabra := rfl

theorem finEn_cons (c : Char) (cs : List Char) (n : TrieNode α) :
    finEn (c :: cs) n =
      match n.children c with
      | none => false
      | some h => finEn cs h := by
  unfold finEn
  simp only [descender]
  cases n.children c <;> rfl

theorem finEn_nuevo (p : List Char) : finEn p (nuevo : TrieNode α) = false := by
  cases p with
  | nil => rfl
  | cons c cs => rfl

theorem finEn_push (p : List Char) (n : TrieNode α) (e : α) :
    finEn p (mk n.children (n.elementos ++ [e]) n.esFinDePalabra) = finEn p n := by
  cases p with
  | nil => simp [finEn_nil, esFinDePalabra_mk]
  | cons c cs => simp [finEn_cons, children_mk]

/-- Inserting word `w` sets the terminal flag of exactly the node at path `w`. -/
theorem finEn_insertarDesde (e : α) (w : List Char) :
    ∀ (p : List Char) (n : TrieNode α),
      finEn p (insertarDesde e w n) = (finEn p n || decide (p = w)) := by
  induction w with
  | nil =>
    intro p n
    cases n with
    | mk ch el fin =>
      cases p with
      | nil => simp [insertarDesde, finEn_nil, esFinDePalabra_mk]
      | cons c cs => simp [insertarDesde, finEn_cons, children_mk]
  | cons c cs ih =>
    intro p n
    cases n with
    | mk ch el fin =>
      cases p with
      | nil => simp [insertarDesde, finEn_nil, esFinDePalabra_mk]
      | cons d ds =>
        by_cases hdc : d = c
        · subst hdc
          simp only [insertarDesde, finEn_cons, children_mk, if_true, ih, finEn_push]
          cases hch : ch d with
          | none => simp [finEn_nuevo]
          | some h => simp
        · simp [insertarDesde, finEn_cons, children_mk, hdc]

end TrieNode

namespace Trie

variable {α : Type}

theorem buscarPorPrefijo_eq (t : Trie α) (p : List Char) :
    t.buscarPorPrefijo p = TrieNode.elementosEn (toLower p) t.raiz := rfl

theorem buscarPalabraExacta_eq (t : Trie α) (w : List Char) :
    t.buscarPalabraExacta w =
      if TrieNode.finEn (toLower w) t.raiz then TrieNode.elementosEn (toLower w) t.raiz
      else [] := by
  unfold buscarPalabraExacta TrieNode.finEn TrieNode.elementosEn
  cases TrieNode.descender (toLower w) t.raiz <;> simp

theorem toLower_eq_nil (p : List Char) : toLower p = [] ↔ p = [] := by
  simp [toLower]

theorem buscarPorPrefijo_vacio (p : List Char) :
    (vacio : Trie α).buscarPorPrefijo p = [] := by
  simp [buscarPorPrefijo_eq, vacio, TrieNode.elementosEn_nuevo]

/-- The effect of one `insertar` on every prefix query. -/
theorem buscarPorPrefijo_insertar (t : Trie α) (w : List Char) (e : α) (p : List Char) :
    (t.insertar w e).buscarPorPrefijo p =
      t.buscarPorPrefijo p ++
        (if p ≠ [] ∧ toLower p <+: toLower w then [e] else []) := by
  simp [buscarPorPrefijo_eq, insertar, TrieNode.elementosEn_insertarDesde, toLower_eq_nil]

theorem deLlamadas_insertar (l : List (List Char × α)) (ll : List Char × α) :
    deLlamadas (l ++ [ll]) = (deLlamadas l).insertar ll.1 ll.2 := by
  simp [deLlamadas, List.foldl_append]

/-- Prefix queries on a trie built by a sequence of calls, for any prefix. -/
theorem buscarPorPrefijo_deLlamadas (l : List (List Char × α)) (p : List Char) :
    (deLlamadas l).buscarPorPrefijo p =
      (l.filter (fun ll => decide (p ≠ [] ∧ toLower p <+: toLower ll.1))).map Prod.snd := by
  induction l using List.reverseRecOn with
  | nil => simp [deLlamadas, buscarPorPrefijo_vacio]
  | append_singleton l ll ih =>
    rw [deLlamadas_insertar, buscarPorPrefijo_insertar, ih, List.filter_append, List.map_append]
    by_cases h : p ≠ [] ∧ toLower p <+: toLower ll.1
    · simp [List.filter_cons, h]
    · simp [List.filter_cons, h]

theorem finEn_deLlamadas (l : List (List Char × α)) (w : List Char) :
    TrieNode.finEn w (deLlamadas l).raiz = decide (∃ ll ∈ l, toLower ll.1 = w) := by
  induction l using List.reverseRecOn with
  | nil =>
    have h : ¬ ∃ ll ∈ ([] : List (List Char × α)), toLower ll.1 = w := by
      rintro ⟨x, hx, _⟩
      cases hx
    rw [decide_eq_false h]
    exact TrieNode.finEn_nuevo w
  | append_singleton l ll ih =>
    rw [deLlamadas_insertar]
    show TrieNode.finEn w (TrieNode.insertarDesde ll.2 (toLower ll.1) (deLlamadas l).raiz) = _
    rw [TrieNode.finEn_insertarDesde, ih, ← Bool.decide_or]
    apply decide_eq_decide.mpr
    constructor
    · rintro (⟨x, hx, hw⟩ | h)
      · exact ⟨x, List.mem_append_left _ hx, hw⟩
      · exact ⟨ll, List.mem_append_right _ (List.mem_singleton.2 rfl), h.symm⟩
    · rintro ⟨x, hx, hw⟩
      rcases List.mem_append.1 hx with hx | hx
      · exact Or.inl ⟨x, hx, hw⟩
      · rw [List.mem_singleton.1 hx] at hw
        exact Or.inr hw.symm

end Trie

namespace IndiceGenerico

variable {α K : Type} [DecidableEq K]

/-- The effect of one `agregar` on every lookup. -/
theorem buscar_agregar (ix : IndiceGenerico α K) (k : K) (e : α) (k1 : K) :
    (ix.agregar k e).buscar k1 = if k1 = k then ix.buscar k ++ [e] else ix.buscar k1 := by
  unfold buscar agregar
  by_cases h : k1 = k
  · subst h
    cases ix.indice k1 <;> simp
  · simp [h]

theorem deLlamadas_agregar (l : List (K × α)) (ll : K × α) :
    deLlamadas (l ++ [ll]) = (deLlamadas l).agregar ll.1 ll.2 := by
  simp [deLlamadas, List.foldl_append]

theorem buscar_deLlamadas (l : List (K × α)) (k : K) :
    (deLlamadas l).buscar k = (l.filter (fun ll => decide (ll.1 = k))).map Prod.snd := by
  induction l using List.reverseRecOn with
  | nil => simp [deLlamadas, buscar, vacio]
  | append_singleton l ll ih =>
    rw [deLlamadas_agregar, buscar_agregar, List.filter_append, List.map_append]
    by_cases h : ll.1 = k
    · simp [List.filter_cons, h, ← ih]
    · have h1 : ¬ k = ll.1 := fun h2 => h h2.symm
      simp [List.filter_cons, h, h1, ih]

end IndiceGenerico

/-! ## Facts about scoring -/

theorem occurrencesDesde_drop (term : List Char) :
    ∀ (text : List Char) (k : Nat),
      occurrencesDesde term text k = occurrencesDesde term (text.drop k) 0 := by
  intro text
  induction text with
  | nil => intro k; simp [occurrencesDesde]
  | cons c cs ih =>
    intro k
    cases k with
    | zero => rfl
    | succ k => simp only [occurrencesDesde, List.drop_succ_cons]; exact ih k

/-- What `find` reports about the scan of the specification: nothing found means
no match at all; a match at distance `d` is the first one, and the scan resumes
after it. -/
theorem findDesde_spec (term : List Char) (hterm : term ≠ []) :
    ∀ (s : List Char) (i : Nat),
      match findDesde term s i with
      | none => occurrencesDesde term s 0 = 0
      | some q => ∃ d, q = i + d ∧ d + term.length ≤ s.length ∧
          occurrencesDesde term s 0 = 1 + occurrencesDesde term (s.drop (d + term.length)) 0 := by
  intro s
  induction s with
  | nil => intro i; simp [findDesde, hterm, occurrencesDesde]
  | cons c cs ih =>
    intro i
    by_cases hp : term <+: c :: cs
    · simp only [findDesde, hp, if_true]
      refine ⟨0, rfl, ?_, ?_⟩
      · simpa using hp.length_le
      · have hl : term.length = (term.length - 1) + 1 := by
          have := List.length_pos.2 hterm
          omega
        simp only [occurrencesDesde, hp, if_true, Nat.zero_add]
        rw [occurrencesDesde_drop term cs (term.length - 1)]
        conv_rhs => rw [hl, List.drop_succ_cons]
    · simp only [findDesde, hp, if_false]
      have h := ih (i + 1)
      cases hf : findDesde term cs (i + 1) with
      | none =>
        rw [hf] at h
        simpa [occurrencesDesde, hp] using h
      | some q =>
        rw [hf] at h
        obtain ⟨d, hq, hlen, hocc⟩ := h
        refine ⟨d + 1, by omega, by simp only [List.length_cons]; omega, ?_⟩
        have hd : d + 1 + term.length = (d + term.length) + 1 := by omega
        simp only [occurrencesDesde, hp, if_false]
        rw [hd, List.drop_succ_cons]
        exact hocc

/-- With a non-empty pattern the loop of `contarOcurrencias` ends within
`texto.length - pos + 1` iterations and has counted the matches of the scan. -/
theorem contarOcurrenciasBucle_eq (texto patron : List Char) (hpat : patron ≠ []) :
    ∀ (fuel pos count : Nat), pos ≤ texto.length → texto.length - pos < fuel →
      contarOcurrenciasBucle texto patron fuel pos count =
        some (count + occurrencesDesde patron (texto.drop pos) 0) := by
  intro fuel
  induction fuel with
  | zero => intro pos count _ h; omega
  | succ fuel ih =>
    intro pos count hpos hfuel
    have h := findDesde_spec patron hpat (texto.drop pos) pos
    simp only [contarOcurrenciasBucle, find, hpos, if_true]
    cases hf : findDesde patron (texto.drop pos) pos with
    | none =>
      rw [hf] at h
      simp [h]
    | some q =>
      rw [hf] at h
      obtain ⟨d, hq, hlen, hocc⟩ := h
      simp only [List.length_drop] at hlen
      have hm := List.length_pos.2 hpat
      subst hq
      simp only
      rw [ih (pos + d + patron.length) (count + 1) (by omega) (by omega), hocc,
        List.drop_drop]
      have e : pos + d + patron.length = pos + (d + patron.length) := by omega
      have e2 : d + patron.length + pos = pos + (d + patron.length) := by omega
      simp only [e, e2, Nat.add_assoc]
      try rfl

theorem contarOcurrencias_eq (fuel : Nat) (texto patron : List Char) (hpat : patron ≠ [])
    (hfuel : texto.length < fuel) :
    contarOcurrencias fuel texto patron = some (occurrences patron texto) := by
  unfold contarOcurrencias occurrences
  rw [contarOcurrenciasBucle_eq texto patron hpat fuel 0 0 (Nat.zero_le _) (by simpa using hfuel)]
  simp

theorem bonusTags_eq (terminoLower : List Char) (tags : List (List Char)) (p : Nat) :
    bonusTags terminoLower tags p =
      p + (if ∃ tag ∈ tags, toLower tag = terminoLower then 5 else 0) := by
  induction tags with
  | nil => simp [bonusTags]
  | cons t ts ih =>
    by_cases h : toLower t = terminoLower
    · simp [bonusTags, h]
    · simp [bonusTags, h, ih]

theorem calcularPuntuacion_eq (fuel : Nat) (pelicula : Pelicula) (termino : List Char)
    (n : Nat) (hterm : termino ≠ []) (h1 : pelicula.titulo.length < fuel)
    (h2 : pelicula.sinopsis.length < fuel) :
    calcularPuntuacion fuel pelicula termino n = some (scoreSpec pelicula termino) := by
  have ht : toLower termino ≠ [] := by simpa [toLower] using hterm
  have e1 := contarOcurrencias_eq fuel (toLower pelicula.titulo) (toLower termino) ht
    (by simpa [toLower] using h1)
  have e2 := contarOcurrencias_eq fuel (toLower pelicula.sinopsis) (toLower termino) ht
    (by simpa [toLower] using h2)
  unfold calcularPuntuacion scoreSpec
  simp only [e1, e2, bonusTags_eq]
  by_cases h : toLower pelicula.titulo = toLower termino
  · simp only [h, if_true, Nat.zero_add, Nat.add_zero, Nat.mul_one, Nat.one_mul,
      Nat.mul_comm _ 3]
  · simp only [h, if_false, Nat.zero_add, Nat.add_zero, Nat.mul_one, Nat.one_mul,
      Nat.mul_comm _ 3]

/-! ## Facts about `sort` -/

theorem insertarOrdenado_perm {α : Type} (antes : α → α → Bool) (x : α) (l : List α) :
    (insertarOrdenado antes x l).Perm (x :: l) := by
  induction l with
  | nil => exact List.Perm.refl _
  | cons y ys ih =>
    unfold insertarOrdenado
    by_cases h : antes y x = true
    · rw [if_pos h]
      exact ((List.Perm.cons y ih).trans (List.Perm.swap x y ys))
    · rw [if_neg h]

theorem sort_perm {α : Type} (antes : α → α → Bool) (l : List α) :
    (sort antes l).Perm l := by
  induction l with
  | nil => exact List.Perm.refl _
  | cons x xs ih =>
    exact (insertarOrdenado_perm antes x (sort antes xs)).trans (List.Perm.cons x ih)

theorem insertarOrdenado_pairwise {α : Type} (f : α → Nat) (x : α) (l : List α)
    (h : l.Pairwise (fun a b => f b ≤ f a)) :
    (insertarOrdenado (fun a b => decide (f a > f b)) x l).Pairwise (fun a b => f b ≤ f a) := by
  induction l with
  | nil => simp [insertarOrdenado]
  | cons y ys ih =>
    rw [List.pairwise_cons] at h
    unfold insertarOrdenado
    by_cases hyx : f y > f x
    · rw [if_pos (by simpa using hyx)]
      rw [List.pairwise_cons]
      refine ⟨?_, ih h.2⟩
      intro z hz
      rcases List.mem_cons.1 ((insertarOrdenado_perm _ x ys).mem_iff.1 hz) with hz | hz
      · subst hz; omega
      · exact h.1 z hz
    · rw [if_neg (by simpa using hyx)]
      rw [List.pairwise_cons, List.pairwise_cons]
      refine ⟨?_, h.1, h.2⟩
      intro z hz
      rcases List.mem_cons.1 hz with hz | hz
      · subst hz; omega
      · have := h.1 z hz
        omega

/-- The result of `sort` under the comparator `f a > f b` is non-increasing in `f`. -/
theorem sort_pairwise {α : Type} (f : α → Nat) (l : List α) :
    (sort (fun a b => decide (f a > f b)) l).Pairwise (fun a b => f b ≤ f a) := by
  induction l with
  | nil => exact List.Pairwise.nil
  | cons x xs ih => exact insertarOrdenado_pairwise f x _ ih

/-! ## Facts about the scoring loop -/

theorem conPuntuacion_idem (t : List Char) (p : Pelicula) :
    conPuntuacion t (conPuntuacion t p) = conPuntuacion t p := rfl

theorem lt_of_cotaCombustible {ps : List Pelicula} {fuel : Nat}
    (h : cotaCombustible ps ≤ fuel) :
    ∀ p ∈ ps, p.titulo.length < fuel ∧ p.sinopsis.length < fuel := by
  induction ps with
  | nil => intro p hp; cases hp
  | cons q qs ih =>
    intro p hp
    simp only [cotaCombustible] at h
    rcases List.mem_cons.1 hp with hp | hp
    · subst hp
      omega
    · exact ih (by omega) p hp

/-- The scoring loop over valid references with a non-empty term ends and stores
the score of the specification in exactly the records it visits. -/
theorem puntuar_eq (fuel : Nat) (t : List Char) (n : Nat) (ht : t ≠ []) :
    ∀ (l : List Nat) (ps : List Pelicula),
      (∀ i ∈ l, i < ps.length) →
      (∀ p ∈ ps, p.titulo.length < fuel ∧ p.sinopsis.length < fuel) →
      ∃ ps1, puntuar fuel t n l ps = some ps1 ∧ ps1.length = ps.length ∧
        ∀ k, ps1[k]? = (ps[k]?).map (fun p => if k ∈ l then conPuntuacion t p else p) := by
  intro l
  induction l with
  | nil =>
    intro ps _ _
    refine ⟨ps, rfl, rfl, ?_⟩
    intro k
    cases ps[k]? <;> simp
  | cons i rest ih =>
    intro ps hval hfuel
    have hi : i < ps.length := hval i (List.mem_cons_self _ _)
    have hget : ps[i]? = some ps[i] := List.getElem?_eq_getElem hi
    have hmem : ps[i] ∈ ps := List.getElem_mem hi
    have hcalc := calcularPuntuacion_eq fuel ps[i] t n ht (hfuel _ hmem).1 (hfuel _ hmem).2
    have hval1 : ∀ k ∈ rest, k < (ps.set i (conPuntuacion t ps[i])).length := by
      intro k hk
      rw [List.length_set]
      exact hval k (List.mem_cons_of_mem _ hk)
    have hfuel1 : ∀ p ∈ ps.set i (conPuntuacion t ps[i]),
        p.titulo.length < fuel ∧ p.sinopsis.length < fuel := by
      intro p hp
      rcases List.mem_or_eq_of_mem_set hp with hp | hp
      · exact hfuel p hp
      · subst hp
        exact hfuel ps[i] hmem
    obtain ⟨ps1, h1, h2, h3⟩ := ih (ps.set i (conPuntuacion t ps[i])) hval1 hfuel1
    refine ⟨ps1, ?_, ?_, ?_⟩
    · simp only [puntuar, hget, hcalc]
      exact h1
    · rw [h2, List.length_set]
    · intro k
      rw [h3 k, List.getElem?_set]
      by_cases hik : i = k
      · subst hik
        simp only [if_true, hi, hget, Option.map_some', List.mem_cons, true_or]
        by_cases hr : i ∈ rest
        · simp only [hr, if_true, conPuntuacion_idem]
        · simp only [hr, if_false]
      · have hki : ¬ k = i := fun h => hik h.symm
        simp only [hik, if_false, List.mem_cons, hki, false_or]

/-! ## Facts about built indexes and the text query -/

theorem construido_inv {ps : List Pelicula} {g : GestorPeliculas} (h : Construido ps g) :
    g.peliculas = ps ∧
      (g.indiceTitulos.buscarPorPrefijo [] = [] ∧ g.indiceSinopsis.buscarPorPrefijo [] = []) ∧
      ∀ p, (∀ i ∈ g.indiceTitulos.buscarPorPrefijo p, i < ps.length) ∧
        (∀ i ∈ g.indiceSinopsis.buscarPorPrefijo p, i < ps.length) := by
  induction h with
  | inicio =>
    refine ⟨rfl, ⟨Trie.buscarPorPrefijo_vacio _, Trie.buscarPorPrefijo_vacio _⟩, ?_⟩
    intro p
    simp [sinIndexar, Trie.buscarPorPrefijo_vacio]
  | titulo w j _ hj ih =>
    obtain ⟨h1, h2, h3⟩ := ih
    refine ⟨h1, ⟨?_, h2.2⟩, ?_⟩
    · simp [Trie.buscarPorPrefijo_insertar, h2.1]
    · intro p
      refine ⟨?_, (h3 p).2⟩
      intro i hi
      simp only [Trie.buscarPorPrefijo_insertar, List.mem_append] at hi
      rcases hi with hi | hi
      · exact (h3 p).1 i hi
      · split at hi
        · rw [List.mem_singleton.1 hi]; exact hj
        · cases hi
  | sinopsis w j _ hj ih =>
    obtain ⟨h1, h2, h3⟩ := ih
    refine ⟨h1, ⟨h2.1, ?_⟩, ?_⟩
    · simp [Trie.buscarPorPrefijo_insertar, h2.2]
    · intro p
      refine ⟨(h3 p).1, ?_⟩
      intro i hi
      simp only [Trie.buscarPorPrefijo_insertar, List.mem_append] at hi
      rcases hi with hi | hi
      · exact (h3 p).2 i hi
      · split at hi
        · rw [List.mem_singleton.1 hi]; exact hj
        · cases hi
  | tag w j _ _ ih => exact ih

/-- A built index stays a built index when the records are replaced by as many
records, as the scoring loop of the text query does. -/
theorem construido_peliculas {ps ps1 : List Pelicula} {g : GestorPeliculas}
    (h : Construido ps g) (hlen : ps1.length = ps.length) :
    Construido ps1 { g with peliculas := ps1 } := by
  induction h with
  | inicio => exact Construido.inicio
  | titulo w j _ hj ih => exact Construido.titulo w j ih (hlen ▸ hj)
  | sinopsis w j _ hj ih => exact Construido.sinopsis w j ih (hlen ▸ hj)
  | tag w j _ hj ih => exact Construido.tag w j ih (hlen ▸ hj)

theorem mem_resultadosUnicos (pl : Plataforma) (g : GestorPeliculas) (t : List Char) (i : Nat) :
    i ∈ resultadosUnicos pl g t ↔
      (i ∈ g.indiceTitulos.buscarPorPrefijo t ∨ i ∈ g.indiceSinopsis.buscarPorPrefijo t) := by
  unfold resultadosUnicos
  rw [(pl.iterar_perm _).mem_iff, List.mem_dedup, List.mem_append]

theorem nodup_resultadosUnicos (pl : Plataforma) (g : GestorPeliculas) (t : List Char) :
    (resultadosUnicos pl g t).Nodup := by
  unfold resultadosUnicos
  exact (pl.iterar_perm _).nodup_iff.2 (List.nodup_dedup _)

theorem resultadosUnicos_nil {ps : List Pelicula} {g : GestorPeliculas}
    (hg : Construido ps g) (pl : Plataforma) : resultadosUnicos pl g [] = [] := by
  obtain ⟨_, hraiz, _⟩ := construido_inv hg
  unfold resultadosUnicos
  rw [hraiz.1, hraiz.2]
  exact List.Perm.eq_nil (pl.iterar_perm _)

theorem resultadosUnicos_lt {ps : List Pelicula} {g : GestorPeliculas}
    (hg : Construido ps g) (pl : Plataforma) (t : List Char) :
    ∀ i ∈ resultadosUnicos pl g t, i < ps.length := by
  obtain ⟨_, _, hval⟩ := construido_inv hg
  intro i hi
  rcases (mem_resultadosUnicos pl g t i).1 hi with hi | hi
  · exact (hval t).1 i hi
  · exact (hval t).2 i hi

/-- On a built index the text query returns: it yields the sorted distinct
references and a store in which exactly the returned records carry their score. -/
theorem buscar_construido (pl : Plataforma) {ps : List Pelicula} {g : GestorPeliculas}
    (hg : Construido ps g) (fuel : Nat) (hfuel : cotaCombustible ps ≤ fuel) (t : List Char) :
    ∃ ps1,
      buscarPorTituloOSinopsis pl fuel g t =
        some (sort (fun a b => decide (relevanciaDe ps1 a > relevanciaDe ps1 b))
            (resultadosUnicos pl g t), { g with peliculas := ps1 }) ∧
      ps1.length = ps.length ∧
      ∀ k, ps1[k]? =
        (ps[k]?).map (fun p => if k ∈ resultadosUnicos pl g t then conPuntuacion t p else p) := by
  obtain ⟨hps, hraiz, hval⟩ := construido_inv hg
  by_cases ht : t = []
  · subst ht
    have hR : resultadosUnicos pl g [] = [] := by
      unfold resultadosUnicos
      rw [hraiz.1, hraiz.2]
      exact List.Perm.eq_nil (pl.iterar_perm _)
    refine ⟨ps, ?_, rfl, ?_⟩
    · simp only [buscarPorTituloOSinopsis, hR, puntuar, hps]
    · intro k
      rw [hR]
      cases ps[k]? <;> simp
  · have hvalid : ∀ i ∈ resultadosUnicos pl g t, i < ps.length := by
      intro i hi
      rcases (mem_resultadosUnicos pl g t i).1 hi with hi | hi
      · exact (hval t).1 i hi
      · exact (hval t).2 i hi
    obtain ⟨ps1, h1, h2, h3⟩ := puntuar_eq fuel t ps.length ht (resultadosUnicos pl g t) ps
      hvalid (lt_of_cotaCombustible hfuel)
    refine ⟨ps1, ?_, h2, h3⟩
    simp only [buscarPorTituloOSinopsis, hps, h1]

/-! ## Facts about `indexarPelicula` -/

theorem foldl_insertar_deLlamadas (l : List (List Char × Nat)) (ws : List (List Char))
    (j : Nat) :
    ws.foldl (fun t palabra => t.insertar palabra j) (Trie.deLlamadas l) =
      Trie.deLlamadas (l ++ ws.map (fun palabra => (palabra, j))) := by
  simp [Trie.deLlamadas, List.foldl_append, List.foldl_map]

theorem foldl_agregar_deLlamadas (l : List (List Char × Nat)) (ws : List (List Char))
    (j : Nat) :
    ws.foldl (fun ix tag => ix.agregar tag j) (IndiceGenerico.deLlamadas l) =
      IndiceGenerico.deLlamadas (l ++ ws.map (fun tag => (tag, j))) := by
  simp [IndiceGenerico.deLlamadas, List.foldl_append, List.foldl_map]

theorem rastro_indexarPelicula {ps : List Pelicula} {g : GestorPeliculas}
    {lt ls lk : List (List Char × Nat)} (h : Rastro ps g lt ls lk) (j : Nat) :
    Rastro ps (indexarPelicula g j) (lt ++ llamadasTitulo ps j) (ls ++ llamadasSinopsis ps j)
      (lk ++ llamadasTags ps j) := by
  obtain ⟨h1, h2, h3, h4⟩ := h
  unfold indexarPelicula llamadasTitulo llamadasSinopsis llamadasTags
  rw [h1]
  cases ps[j]? with
  | none => simpa using ⟨h1, h2, h3, h4⟩
  | some pelicula =>
    refine ⟨rfl, ?_, ?_, ?_⟩
    · simp only [h2, foldl_insertar_deLlamadas]
    · simp only [h3, foldl_insertar_deLlamadas]
    · simp only [h4, foldl_agregar_deLlamadas]

theorem rastro_foldl {ps : List Pelicula} (js : List Nat) :
    ∀ {g : GestorPeliculas} {lt ls lk : List (List Char × Nat)}, Rastro ps g lt ls lk →
      Rastro ps (js.foldl indexarPelicula g) (lt ++ js.flatMap (llamadasTitulo ps))
        (ls ++ js.flatMap (llamadasSinopsis ps)) (lk ++ js.flatMap (llamadasTags ps)) := by
  induction js with
  | nil => intro g lt ls lk h; simpa using h
  | cons j js ih =>
    intro g lt ls lk h
    have := ih (rastro_indexarPelicula h j)
    simpa [List.append_assoc] using this

/-- The indexes left by `indexarPelicula` over the positions `js` are those of the
concatenated call sequences of the records. -/
theorem rastro_indexarEnOrden (ps : List Pelicula) (js : List Nat) :
    Rastro ps (indexarEnOrden ps js) (js.flatMap (llamadasTitulo ps))
      (js.flatMap (llamadasSinopsis ps)) (js.flatMap (llamadasTags ps)) := by
  have h0 : Rastro ps (sinIndexar ps) [] [] [] := ⟨rfl, rfl, rfl, rfl⟩
  simpa using rastro_foldl js h0

theorem construido_foldl_titulo {ps : List Pelicula} (j : Nat) (hj : j < ps.length)
    (ws : List (List Char)) :
    ∀ {g : GestorPeliculas}, Construido ps g →
      Construido ps { g with
        indiceTitulos := ws.foldl (fun t palabra => t.insertar palabra j) g.indiceTitulos } := by
  induction ws with
  | nil => intro g h; exact h
  | cons w ws ih => intro g h; exact ih (Construido.titulo w j h hj)

theorem construido_foldl_sinopsis {ps : List Pelicula} (j : Nat) (hj : j < ps.length)
    (ws : List (List Char)) :
    ∀ {g : GestorPeliculas}, Construido ps g →
      Construido ps { g with
        indiceSinopsis := ws.foldl (fun t palabra => t.insertar palabra j) g.indiceSinopsis } := by
  induction ws with
  | nil => intro g h; exact h
  | cons w ws ih => intro g h; exact ih (Construido.sinopsis w j h hj)

theorem construido_foldl_tags {ps : List Pelicula} (j : Nat) (hj : j < ps.length)
    (ws : List (List Char)) :
    ∀ {g : GestorPeliculas}, Construido ps g →
      Construido ps { g with
        indiceTags := ws.foldl (fun ix tag => ix.agregar tag j) g.indiceTags } := by
  induction ws with
  | nil => intro g h; exact h
  | cons w ws ih => intro g h; exact ih (Construido.tag w j h hj)

theorem construido_indexarPelicula {ps : List Pelicula} {g : GestorPeliculas}
    (h : Construido ps g) (j : Nat) : Construido ps (indexarPelicula g j) := by
  have hps := (construido_inv h).1
  unfold indexarPelicula
  cases hget : g.peliculas[j]? with
  | none => exact h
  | some pelicula =>
    have hj : j < ps.length := by
      rw [← hps]
      exact (List.getElem?_eq_some_iff.1 hget).1
    exact construido_foldl_tags j hj _
      (construido_foldl_sinopsis j hj _ (construido_foldl_titulo j hj _ h))

/-- Whatever the order of the records, the indexes left by `indexarPelicula` are
built indexes. -/
theorem construido_indexarEnOrden (ps : List Pelicula) (js : List Nat) :
    Construido ps (indexarEnOrden ps js) := by
  unfold indexarEnOrden
  have key : ∀ (l : List Nat) (g : GestorPeliculas), Construido ps g →
      Construido ps (l.foldl indexarPelicula g) := by
    intro l
    induction l with
    | nil => intro g h; exact h
    | cons j l ih => intro g h; exact ih _ (construido_indexarPelicula h j)
  exact key js _ Construido.inicio

/-! ## Main results -/

/-- C1: after any sequence of `insertar` calls on the empty trie, `buscarPorPrefijo`
of a non-empty prefix `p` is the list, in call order and with multiplicity, of the
references of the calls whose lowercased word has lowercased `p` as a prefix; it
is empty exactly when no inserted word has that prefix. -/
theorem C1_buscarPorPrefijo {α : Type} (llamadas : List (List Char × α)) (p : List Char)
    (hp : p ≠ []) :
    (Trie.deLlamadas llamadas).buscarPorPrefijo p =
        (llamadas.filter (fun ll => decide (toLower p <+: toLower ll.1))).map Prod.snd ∧
      ((Trie.deLlamadas llamadas).buscarPorPrefijo p = [] ↔
        ∀ ll ∈ llamadas, ¬ toLower p <+: toLower ll.1) := by
  have h : (Trie.deLlamadas llamadas).buscarPorPrefijo p =
      (llamadas.filter (fun ll => decide (toLower p <+: toLower ll.1))).map Prod.snd := by
    rw [Trie.buscarPorPrefijo_deLlamadas]
    simp [hp]
  refine ⟨h, ?_⟩
  rw [h, List.map_eq_nil_iff, List.filter_eq_nil_iff]
  constructor
  · intro h1 ll hll
    exact fun hpre => h1 ll hll (decide_eq_true hpre)
  · intro h1 ll hll hd
    exact h1 ll hll (of_decide_eq_true hd)

/-- Witness for C1: three calls and the prefix `LO`. -/
theorem C1_buscarPorPrefijo_witness :
    "LO".toList ≠ [] ∧
      (Trie.deLlamadas [("Love".toList, 0), ("lo".toList, 1), ("war".toList, 2)]).buscarPorPrefijo
        "LO".toList = [0, 1] :=
  ⟨by decide,
    (C1_buscarPorPrefijo [("Love".toList, 0), ("lo".toList, 1), ("war".toList, 2)]
      "LO".toList (by decide)).1.trans (by decide)⟩

/-- C2: for a non-empty term, `calcularPuntuacion` returns (given at least as many
loop iterations as the longer of title and synopsis has characters, plus one)
3 times the occurrences of the lowercased term in the lowercased title, plus the
occurrences in the lowercased synopsis, plus 10 when the lowercased title equals
the lowercased term, plus 5 when at least one lowercased tag equals it. -/
theorem C2_calcularPuntuacion (fuel : Nat) (pelicula : Pelicula) (termino : List Char)
    (totalPeliculas : Nat) (hterm : termino ≠ [])
    (h1 : pelicula.titulo.length < fuel) (h2 : pelicula.sinopsis.length < fuel) :
    calcularPuntuacion fuel pelicula termino totalPeliculas =
      some (3 * occurrences (toLower termino) (toLower pelicula.titulo)
        + 1 * occurrences (toLower termino) (toLower pelicula.sinopsis)
        + (if toLower pelicula.titulo = toLower termino then 10 else 0)
        + (if ∃ tag ∈ pelicula.tags, toLower tag = toLower termino then 5 else 0)) :=
  calcularPuntuacion_eq fuel pelicula termino totalPeliculas hterm h1 h2

/-- Witness for C2: a record whose title is the term, with two matching tags. -/
theorem C2_calcularPuntuacion_witness :
    "War".toList ≠ [] ∧
      calcularPuntuacion 16
        { titulo := "war".toList, sinopsis := "love during war".toList,
          tags := ["WAR".toList, "war".toList], split := [], fuente_sinopsis := [] }
        "War".toList 1 = some 19 :=
  ⟨by decide,
    (C2_calcularPuntuacion 16
      { titulo := "war".toList, sinopsis := "love during war".toList,
        tags := ["WAR".toList, "war".toList], split := [], fuente_sinopsis := [] }
      "War".toList 1 (by decide) (by decide) (by decide)).trans (by decide)⟩

/-- C3: on a built index the text query returns a list without repetitions whose
members are exactly the references found by the title trie or by the synopsis
trie for the term. -/
theorem C3_sin_duplicados (pl : Plataforma) (ps : List Pelicula) (g : GestorPeliculas)
    (fuel : Nat) (busqueda : List Char) (hg : Construido ps g)
    (hfuel : cotaCombustible ps ≤ fuel) :
    ∃ res g1, buscarPorTituloOSinopsis pl fuel g busqueda = some (res, g1) ∧
      res.Nodup ∧
      ∀ i, i ∈ res ↔
        (i ∈ g.indiceTitulos.buscarPorPrefijo busqueda ∨
          i ∈ g.indiceSinopsis.buscarPorPrefijo busqueda) := by
  obtain ⟨ps1, h1, _, _⟩ := buscar_construido pl hg fuel hfuel busqueda
  refine ⟨_, _, h1, ?_, ?_⟩
  · exact (sort_perm _ _).nodup_iff.2 (nodup_resultadosUnicos pl g busqueda)
  · intro i
    rw [(sort_perm _ _).mem_iff]
    exact mem_resultadosUnicos pl g busqueda i

/-- Witness for C3: the two-record store of the specification and the term `love`. -/
theorem C3_sin_duplicados_witness :
    Construido peliculasEjemplo (construir peliculasEjemplo) ∧
      cotaCombustible peliculasEjemplo ≤ 16 ∧
      ∃ res g1, buscarPorTituloOSinopsis plataformaSimple 16 (construir peliculasEjemplo)
          "love".toList = some (res, g1) ∧
        res.Nodup ∧
        ∀ i, i ∈ res ↔
          (i ∈ (construir peliculasEjemplo).indiceTitulos.buscarPorPrefijo "love".toList ∨
            i ∈ (construir peliculasEjemplo).indiceSinopsis.buscarPorPrefijo "love".toList) :=
  ⟨construido_indexarEnOrden _ _, by decide,
    C3_sin_duplicados plataformaSimple peliculasEjemplo (construir peliculasEjemplo) 16
      "love".toList (construido_indexarEnOrden _ _) (by decide)⟩

/-- C4: on a built index the list returned by the text query is ordered by
non-increasing score: for every adjacent pair, `calcularPuntuacion` of the earlier
record for the term is at least that of the later record. -/
theorem C4_orden_descendente (pl : Plataforma) (ps : List Pelicula) (g : GestorPeliculas)
    (fuel : Nat) (busqueda : List Char) (hg : Construido ps g)
    (hfuel : cotaCombustible ps ≤ fuel) :
    ∃ res g1, buscarPorTituloOSinopsis pl fuel g busqueda = some (res, g1) ∧
      List.Chain' (fun a b => ∃ pa pb sa sb, ps[a]? = some pa ∧ ps[b]? = some pb ∧
        calcularPuntuacion fuel pa busqueda ps.length = some sa ∧
        calcularPuntuacion fuel pb busqueda ps.length = some sb ∧ sb ≤ sa) res := by
  obtain ⟨ps1, h1, _, h3⟩ := buscar_construido pl hg fuel hfuel busqueda
  refine ⟨_, _, h1, ?_⟩
  apply List.Pairwise.chain'
  refine List.Pairwise.imp_of_mem ?_ (sort_pairwise (relevanciaDe ps1) _)
  intro a b ha hb hab
  rw [(sort_perm _ _).mem_iff] at ha hb
  have hne : busqueda ≠ [] := by
    intro h
    rw [h, resultadosUnicos_nil hg pl] at ha
    cases ha
  have key : ∀ c ∈ resultadosUnicos pl g busqueda, ∃ pc, ps[c]? = some pc ∧
      calcularPuntuacion fuel pc busqueda ps.length = some (relevanciaDe ps1 c) := by
    intro c hc
    have hlt := resultadosUnicos_lt hg pl busqueda c hc
    have hmem : ps[c] ∈ ps := List.getElem_mem hlt
    refine ⟨ps[c], List.getElem?_eq_getElem hlt, ?_⟩
    have hr : relevanciaDe ps1 c = scoreSpec ps[c] busqueda := by
      unfold relevanciaDe
      rw [h3 c, List.getElem?_eq_getElem hlt]
      simp [hc, conPuntuacion]
    rw [hr]
    exact calcularPuntuacion_eq fuel ps[c] busqueda ps.length hne
      (lt_of_cotaCombustible hfuel _ hmem).1 (lt_of_cotaCombustible hfuel _ hmem).2
  obtain ⟨pa, hpa, hsa⟩ := key a ha
  obtain ⟨pb, hpb, hsb⟩ := key b hb
  exact ⟨pa, pb, _, _, hpa, hpb, hsa, hsb, hab⟩

/-- Witness for C4: the two-record store of the specification and the term `love`. -/
theorem C4_orden_descendente_witness :
    Construido peliculasEjemplo (construir peliculasEjemplo) ∧
      cotaCombustible peliculasEjemplo ≤ 16 ∧
      ∃ res g1, buscarPorTituloOSinopsis plataformaSimple 16 (construir peliculasEjemplo)
          "love".toList = some (res, g1) ∧
        List.Chain' (fun a b => ∃ pa pb sa sb, peliculasEjemplo[a]? = some pa ∧
          peliculasEjemplo[b]? = some pb ∧
          calcularPuntuacion 16 pa "love".toList peliculasEjemplo.length = some sa ∧
          calcularPuntuacion 16 pb "love".toList peliculasEjemplo.length = some sb ∧
          sb ≤ sa) res :=
  ⟨construido_indexarEnOrden _ _, by decide,
    C4_orden_descendente plataformaSimple peliculasEjemplo (construir peliculasEjemplo) 16
      "love".toList (construido_indexarEnOrden _ _) (by decide)⟩

/-- C5: in the index left by `indexarPelicula` over the positions `js`, for every
indexed record, every word `w` extracted from its title or synopsis and every
non-empty `pre` that is a prefix of `w` up to letter case, the text query for
`pre` returns and contains that record exactly once. -/
theorem C5_prefijo_una_vez (pl : Plataforma) (ps : List Pelicula) (js : List Nat) (j : Nat)
    (pelicula : Pelicula) (w pre : List Char) (fuel : Nat)
    (hj : j ∈ js) (hp : ps[j]? = some pelicula)
    (hw : w ∈ palabras pelicula.titulo ∨ w ∈ palabras pelicula.sinopsis)
    (hpre : pre ≠ []) (hpw : toLower pre <+: toLower w)
    (hfuel : cotaCombustible ps ≤ fuel) :
    ∃ res g1, buscarPorTituloOSinopsis pl fuel (indexarEnOrden ps js) pre = some (res, g1) ∧
      res.count j = 1 := by
  have hg := construido_indexarEnOrden ps js
  obtain ⟨_, ht, hs, _⟩ := rastro_indexarEnOrden ps js
  obtain ⟨ps1, h1, _, _⟩ := buscar_construido pl hg fuel hfuel pre
  refine ⟨_, _, h1, ?_⟩
  apply List.count_eq_one_of_mem
  · exact (sort_perm _ _).nodup_iff.2 (nodup_resultadosUnicos pl _ pre)
  · rw [(sort_perm _ _).mem_iff, mem_resultadosUnicos, ht, hs,
      Trie.buscarPorPrefijo_deLlamadas, Trie.buscarPorPrefijo_deLlamadas]
    rcases hw with hw | hw
    · left
      refine List.mem_map.2 ⟨(w, j), List.mem_filter.2 ⟨?_, decide_eq_true ⟨hpre, hpw⟩⟩, rfl⟩
      refine List.mem_flatMap.2 ⟨j, hj, ?_⟩
      unfold llamadasTitulo
      rw [hp]
      exact List.mem_map.2 ⟨w, hw, rfl⟩
    · right
      refine List.mem_map.2 ⟨(w, j), List.mem_filter.2 ⟨?_, decide_eq_true ⟨hpre, hpw⟩⟩, rfl⟩
      refine List.mem_flatMap.2 ⟨j, hj, ?_⟩
      unfold llamadasSinopsis
      rw [hp]
      exact List.mem_map.2 ⟨w, hw, rfl⟩

/-- Witness for C5: `love` occurs in title and synopsis of record 0 of the store of
the specification; the query is `LO`. -/
theorem C5_prefijo_una_vez_witness :
    (0 ∈ [0, 1] ∧ peliculasEjemplo[0]? = some (peliculasEjemplo.get ⟨0, by decide⟩) ∧
      ("Love".toList ∈ palabras (peliculasEjemplo.get ⟨0, by decide⟩).titulo ∨
        "Love".toList ∈ palabras (peliculasEjemplo.get ⟨0, by decide⟩).sinopsis) ∧
      "LO".toList ≠ [] ∧ toLower "LO".toList <+: toLower "Love".toList ∧
      cotaCombustible peliculasEjemplo ≤ 16) ∧
      ∃ res g1, buscarPorTituloOSinopsis plataformaSimple 16
          (indexarEnOrden peliculasEjemplo [0, 1]) "LO".toList = some (res, g1) ∧
        res.count 0 = 1 :=
  ⟨⟨by decide, by decide, by decide, by decide, by decide, by decide⟩,
    C5_prefijo_una_vez plataformaSimple peliculasEjemplo [0, 1] 0
      (peliculasEjemplo.get ⟨0, by decide⟩) "Love".toList "LO".toList 16
      (by decide) (by decide) (by decide) (by decide) (by decide) (by decide)⟩

theorem mem_buscarPorTag (ps : List Pelicula) (js : List Nat) (t : List Char) (i : Nat) :
    i ∈ buscarPorTag (indexarEnOrden ps js) t ↔
      (i ∈ js ∧ ∃ p, ps[i]? = some p ∧ normalizarTag t ∈ p.tags) := by
  obtain ⟨_, _, _, hk⟩ := rastro_indexarEnOrden ps js
  unfold buscarPorTag
  simp only [hk, IndiceGenerico.buscar_deLlamadas]
  constructor
  · intro h
    obtain ⟨ll, hll, hi⟩ := List.mem_map.1 h
    obtain ⟨hmem, hkey⟩ := List.mem_filter.1 hll
    obtain ⟨j, hj, hjmem⟩ := List.mem_flatMap.1 hmem
    unfold llamadasTags at hjmem
    cases hget : ps[j]? with
    | none => rw [hget] at hjmem; cases hjmem
    | some p =>
      rw [hget] at hjmem
      obtain ⟨tag, htag, htl⟩ := List.mem_map.1 hjmem
      have hkey1 : ll.1 = normalizarTag t := of_decide_eq_true hkey
      subst htl
      simp only at hi hkey1
      subst hi
      exact ⟨hj, p, hget, hkey1 ▸ htag⟩
  · rintro ⟨hi, p, hget, htag⟩
    refine List.mem_map.2 ⟨(normalizarTag t, i), List.mem_filter.2 ⟨?_, decide_eq_true rfl⟩, rfl⟩
    refine List.mem_flatMap.2 ⟨i, hi, ?_⟩
    unfold llamadasTags
    rw [hget]
    exact List.mem_map.2 ⟨normalizarTag t, htag, rfl⟩

/-- C6: in the index left by `indexarPelicula` over the positions `js`, `buscarPorTag`
of `t` returns exactly the indexed records whose tag list contains the string
`normalizarTag t` (trimmed and lowercased `t`) as a whole element, and the empty
list exactly when no indexed record has that tag. -/
theorem C6_buscarPorTag_exacto (ps : List Pelicula) (js : List Nat) (t : List Char) :
    (∀ i, i ∈ buscarPorTag (indexarEnOrden ps js) t ↔
        (i ∈ js ∧ ∃ p, ps[i]? = some p ∧ normalizarTag t ∈ p.tags)) ∧
      (buscarPorTag (indexarEnOrden ps js) t = [] ↔
        ∀ i ∈ js, ∀ p, ps[i]? = some p → normalizarTag t ∉ p.tags) := by
  refine ⟨mem_buscarPorTag ps js t, ?_⟩
  rw [List.eq_nil_iff_forall_not_mem]
  constructor
  · intro h i hi p hget htag
    exact h i ((mem_buscarPorTag ps js t i).2 ⟨hi, p, hget, htag⟩)
  · intro h i hmem
    obtain ⟨hi, p, hget, htag⟩ := (mem_buscarPorTag ps js t i).1 hmem
    exact h i hi p hget htag

/-- C7: after any sequence of `agregar` calls on the empty index, `buscar k` is the
list of the references added under exactly `k`, in call order; it is empty
exactly when nothing was added under `k`; and one more `agregar k r` appends `r`
to the bucket of `k` and changes no other lookup. -/
theorem C7_indice_generico {α K : Type} [DecidableEq K] (llamadas : List (K × α))
    (ix : IndiceGenerico α K) (k k1 : K) (r : α) :
    (IndiceGenerico.deLlamadas llamadas).buscar k =
        (llamadas.filter (fun ll => decide (ll.1 = k))).map Prod.snd ∧
      ((IndiceGenerico.deLlamadas llamadas).buscar k = [] ↔ ∀ ll ∈ llamadas, ll.1 ≠ k) ∧
      (ix.agregar k r).buscar k1 = (if k1 = k then ix.buscar k ++ [r] else ix.buscar k1) := by
  refine ⟨IndiceGenerico.buscar_deLlamadas llamadas k, ?_, IndiceGenerico.buscar_agregar ix k r k1⟩
  rw [IndiceGenerico.buscar_deLlamadas, List.map_eq_nil_iff, List.filter_eq_nil_iff]
  constructor
  · intro h ll hll hk
    exact h ll hll (decide_eq_true hk)
  · intro h ll hll hd
    exact h ll hll (of_decide_eq_true hd)

/-- C8: after any sequence of `insertar` calls on the empty trie,
`buscarPalabraExacta w` is `buscarPorPrefijo w` when some inserted word equals `w`
after lowercasing both, and the empty list otherwise. -/
theorem C8_buscarPalabraExacta {α : Type} (llamadas : List (List Char × α)) (w : List Char) :
    (Trie.deLlamadas llamadas).buscarPalabraExacta w =
      if ∃ ll ∈ llamadas, toLower ll.1 = toLower w then
        (Trie.deLlamadas llamadas).buscarPorPrefijo w
      else [] := by
  rw [Trie.buscarPalabraExacta_eq, Trie.finEn_deLlamadas, Trie.buscarPorPrefijo_eq]
  by_cases h : ∃ ll ∈ llamadas, toLower ll.1 = toLower w
  · rw [if_pos h, if_pos (decide_eq_true h)]
  · rw [if_neg h, if_neg (fun hd => h (of_decide_eq_true hd))]

/-- C9 (counterexample): for the term `love` the record titled "Love Story" with
synopsis "a love tale" scores 4, not 13: one title occurrence (3) and one synopsis
occurrence (1); its lowercased title is not equal to the term, so no 10 is added. -/
theorem C9_contraejemplo :
    calcularPuntuacion 16
        { titulo := "Love Story".toList, sinopsis := "a love tale".toList,
          tags := ["romance".toList], split := [], fuente_sinopsis := [] }
        "love".toList 2 = some 4 ∧
      (calcularPuntuacion 16
        { titulo := "Love Story".toList, sinopsis := "a love tale".toList,
          tags := ["romance".toList], split := [], fuente_sinopsis := [] }
        "love".toList 2 == some 13) = false := by
  decide

/-- C9 (amended): for the two records of the scenario and the term `love`,
`calcularPuntuacion` returns 4 for the "Love Story" record and 1 for the "War"
record, whatever their other fields and for any number of loop iterations from
16 on. -/
theorem C9_puntuaciones_escenario (k n : Nat) (sp1 fs1 sp2 fs2 : List Char) (r1 r2 : Nat) :
    calcularPuntuacion (16 + k)
        { titulo := "Love Story".toList, sinopsis := "a love tale".toList,
          tags := ["romance".toList], split := sp1, fuente_sinopsis := fs1,
          relevancia := r1 }
        "love".toList n = some 4 ∧
      calcularPuntuacion (16 + k)
        { titulo := "War".toList, sinopsis := "love during war".toList,
          tags := ["drama".toList, "romance".toList], split := sp2, fuente_sinopsis := fs2,
          relevancia := r2 }
        "love".toList n = some 1 := by
  have hl : "love".toList ≠ [] := by decide
  have a1 : "Love Story".toList.length < 16 + k :=
    Nat.lt_of_lt_of_le (by decide) (Nat.le_add_right 16 k)
  have a2 : "a love tale".toList.length < 16 + k :=
    Nat.lt_of_lt_of_le (by decide) (Nat.le_add_right 16 k)
  have b1 : "War".toList.length < 16 + k :=
    Nat.lt_of_lt_of_le (by decide) (Nat.le_add_right 16 k)
  have b2 : "love during war".toList.length < 16 + k :=
    Nat.lt_of_lt_of_le (by decide) (Nat.le_add_right 16 k)
  constructor
  · rw [calcularPuntuacion_eq (16 + k) _ _ n hl a1 a2]
    rfl
  · rw [calcularPuntuacion_eq (16 + k) _ _ n hl b1 b2]
    rfl

/-- C10 (counterexample): in the two-record store of the specification every
stored `relevancia` is 0 after the build; after the text query for `love` the
stored values are 4 and 1. -/
theorem C10_contraejemplo :
    (construir peliculasEjemplo).peliculas.map Pelicula.relevancia = [0, 0] ∧
      (buscarPorTituloOSinopsis plataformaSimple 16 (construir peliculasEjemplo)
        "love".toList).map (fun r => r.2.peliculas.map Pelicula.relevancia) = some [4, 1] := by
  decide

/-- C10 (amended): on a built index the text query keeps the number of records and
leaves every field other than `relevancia` of every record unchanged; a record
that is not returned keeps its `relevancia` too, and in every returned record the
stored `relevancia` is overwritten with `calcularPuntuacion` of that record for
the term. -/
theorem C10_solo_relevancia (pl : Plataforma) (ps : List Pelicula) (g : GestorPeliculas)
    (fuel : Nat) (busqueda : List Char) (hg : Construido ps g)
    (hfuel : cotaCombustible ps ≤ fuel) :
    ∃ res g1, buscarPorTituloOSinopsis pl fuel g busqueda = some (res, g1) ∧
      g1.peliculas.length = g.peliculas.length ∧
      ∀ k p, g.peliculas[k]? = some p →
        ∃ p1, g1.peliculas[k]? = some p1 ∧
          p1.titulo = p.titulo ∧ p1.sinopsis = p.sinopsis ∧ p1.tags = p.tags ∧
          p1.split = p.split ∧ p1.fuente_sinopsis = p.fuente_sinopsis ∧
          (k ∉ res → p1.relevancia = p.relevancia) ∧
          (k ∈ res →
            calcularPuntuacion fuel p busqueda g.peliculas.length = some p1.relevancia) := by
  obtain ⟨ps1, h1, h2, h3⟩ := buscar_construido pl hg fuel hfuel busqueda
  have hps := (construido_inv hg).1
  refine ⟨_, _, h1, ?_, ?_⟩
  · simp only [h2, hps]
  · intro k p hk
    rw [hps] at hk
    have hmem : p ∈ ps := List.getElem?_mem hk
    by_cases hin : k ∈ resultadosUnicos pl g busqueda
    · refine ⟨conPuntuacion busqueda p, ?_, rfl, rfl, rfl, rfl, rfl, ?_, ?_⟩
      · simp only [h3 k, hk, Option.map_some', hin, if_true]
      · intro hnot
        exact absurd ((sort_perm _ _).mem_iff.2 hin) hnot
      · intro _
        have hne : busqueda ≠ [] := by
          intro h
          rw [h, resultadosUnicos_nil hg pl] at hin
          cases hin
        rw [hps]
        exact calcularPuntuacion_eq fuel p busqueda ps.length hne
          (lt_of_cotaCombustible hfuel _ hmem).1 (lt_of_cotaCombustible hfuel _ hmem).2
    · refine ⟨p, ?_, rfl, rfl, rfl, rfl, rfl, fun _ => rfl, ?_⟩
      · simp only [h3 k, hk, Option.map_some', hin, if_false]
      · intro hres
        exact absurd ((sort_perm _ _).mem_iff.1 hres) hin

/-- Witness for C10: the two-record store of the specification and the term `love`. -/
theorem C10_solo_relevancia_witness :
    Construido peliculasEjemplo (construir peliculasEjemplo) ∧
      cotaCombustible peliculasEjemplo ≤ 16 ∧
      ∃ res g1, buscarPorTituloOSinopsis plataformaSimple 16 (construir peliculasEjemplo)
          "love".toList = some (res, g1) ∧
        g1.peliculas.length = (construir peliculasEjemplo).peliculas.length ∧
        ∀ k p, (construir peliculasEjemplo).peliculas[k]? = some p →
          ∃ p1, g1.peliculas[k]? = some p1 ∧
            p1.titulo = p.titulo ∧ p1.sinopsis = p.sinopsis ∧ p1.tags = p.tags ∧
            p1.split = p.split ∧ p1.fuente_sinopsis = p.fuente_sinopsis ∧
            (k ∉ res → p1.relevancia = p.relevancia) ∧
            (k ∈ res →
              calcularPuntuacion 16 p "love".toList
                (construir peliculasEjemplo).peliculas.length = some p1.relevancia) :=
  ⟨construido_indexarEnOrden _ _, by decide,
    C10_solo_relevancia plataformaSimple peliculasEjemplo (construir peliculasEjemplo) 16
      "love".toList (construido_indexarEnOrden _ _) (by decide)⟩

/-! ## Queries with an empty term, empty words -/

theorem findDesde_nil (s : List Char) (i : Nat) : findDesde [] s i = some i := by
  cases s with
  | nil => simp [findDesde]
  | cons c cs => simp [findDesde]

/-- With the empty pattern the loop of `contarOcurrencias` is still running after any
number of iterations: `find` reports a match at `pos` and `pos` does not move. -/
theorem contarOcurrenciasBucle_nil (texto : List Char) :
    ∀ (fuel pos count : Nat), pos ≤ texto.length →
      contarOcurrenciasBucle texto [] fuel pos count = none := by
  intro fuel
  induction fuel with
  | zero => intro pos count _; rfl
  | succ fuel ih =>
    intro pos count hpos
    simp only [contarOcurrenciasBucle, find, hpos, if_true, findDesde_nil, List.length_nil,
      Nat.add_zero]
    exact ih pos (count + 1) hpos

theorem contarOcurrencias_nil (fuel : Nat) (texto : List Char) :
    contarOcurrencias fuel texto [] = none :=
  contarOcurrenciasBucle_nil texto fuel 0 0 (Nat.zero_le _)

theorem limpiarTexto_espacios (t : List Char) (ht : ∀ c ∈ t, isspace c = true) :
    limpiarTexto t = [] := by
  unfold limpiarTexto
  rw [List.dropWhile_eq_nil_iff.2 ht]
  rfl

theorem normalizarTag_espacios (t : List Char) (ht : ∀ c ∈ t, isspace c = true) :
    normalizarTag t = [] := by
  unfold normalizarTag
  rw [limpiarTexto_espacios t ht]
  rfl

/-- On a built index the text query for the empty term returns the empty list and
leaves the state as it is, whatever the number of loop iterations allowed. -/
theorem buscar_nil {ps : List Pelicula} {g : GestorPeliculas} (hg : Construido ps g)
    (pl : Plataforma) (fuel : Nat) :
    buscarPorTituloOSinopsis pl fuel g [] = some ([], g) := by
  simp only [buscarPorTituloOSinopsis, resultadosUnicos_nil hg pl, puntuar, sort,
    List.foldr]

/-! ## Repeated queries -/

theorem cotaCombustible_le {ps : List Pelicula} {fuel : Nat}
    (h : ∀ p ∈ ps, p.titulo.length < fuel ∧ p.sinopsis.length < fuel) :
    cotaCombustible ps ≤ fuel := by
  induction ps with
  | nil => exact Nat.zero_le _
  | cons q qs ih =>
    have hq := h q (List.mem_cons_self _ _)
    have hqs := ih (fun p hp => h p (List.mem_cons_of_mem _ hp))
    simp only [cotaCombustible]
    omega

/-- The scoring loop does not change the length of any title or synopsis, so the
same number of loop iterations is enough afterwards. -/
theorem cota_puntuada {ps ps1 : List Pelicula} {fuel : Nat} {t : List Char} {R : List Nat}
    (h3 : ∀ k, ps1[k]? = (ps[k]?).map (fun p => if k ∈ R then conPuntuacion t p else p))
    (hfuel : cotaCombustible ps ≤ fuel) : cotaCombustible ps1 ≤ fuel := by
  apply cotaCombustible_le
  intro p1 hp1
  obtain ⟨k, hk⟩ := List.getElem?_of_mem hp1
  rw [h3 k] at hk
  cases hps : ps[k]? with
  | none => rw [hps] at hk; cases hk
  | some p =>
    rw [hps] at hk
    have hp := lt_of_cotaCombustible hfuel p (List.getElem?_mem hps)
    simp only [Option.map_some', Option.some.injEq] at hk
    subst hk
    split
    · exact hp
    · exact hp

/-- Scoring the same references for the same term a second time changes nothing. -/
theorem puntuada_idem {ps ps1 ps2 : List Pelicula} {t : List Char} {R : List Nat}
    (h1 : ∀ k, ps1[k]? = (ps[k]?).map (fun p => if k ∈ R then conPuntuacion t p else p))
    (h2 : ∀ k, ps2[k]? = (ps1[k]?).map (fun p => if k ∈ R then conPuntuacion t p else p)) :
    ps2 = ps1 := by
  apply List.ext_getElem?
  intro k
  rw [h2 k, h1 k]
  cases ps[k]? with
  | none => rfl
  | some p =>
    by_cases hk : k ∈ R
    · simp only [Option.map_some', hk, if_true, conPuntuacion_idem]
    · simp only [Option.map_some', hk, if_false]

/-- A sequence of queries on a built index runs to its end; it changes only the
store, keeps its length, and leaves alone every record that no text query of the
sequence finds. -/
theorem ejecutar_construido (pl : Plataforma) (fuel : Nat) (qs : List Consulta) :
    ∀ {ps : List Pelicula} {g : GestorPeliculas}, Construido ps g →
      cotaCombustible ps ≤ fuel →
      ∃ ps1, ejecutar pl fuel g qs = some { g with peliculas := ps1 } ∧
        ps1.length = ps.length ∧
        ∀ i, (∀ b, Consulta.texto b ∈ qs → i ∉ resultadosUnicos pl g b) → ps1[i]? = ps[i]? := by
  induction qs with
  | nil =>
    intro ps g hg _
    exact ⟨ps, by rw [← (construido_inv hg).1]; rfl, rfl, fun _ _ => rfl⟩
  | cons q qs ih =>
    intro ps g hg hfuel
    cases q with
    | tag t =>
      obtain ⟨ps1, h1, h2, h3⟩ := ih hg hfuel
      refine ⟨ps1, h1, h2, ?_⟩
      intro i hi
      exact h3 i (fun b hb => hi b (List.mem_cons_of_mem _ hb))
    | texto b =>
      obtain ⟨psb, hb1, hb2, hb3⟩ := buscar_construido pl hg fuel hfuel b
      obtain ⟨ps1, h1, h2, h3⟩ := ih (construido_peliculas hg hb2) (cota_puntuada hb3 hfuel)
      refine ⟨ps1, ?_, h2.trans hb2, ?_⟩
      · simp only [ejecutar, hb1]
        exact h1
      · intro i hi
        have hnot : i ∉ resultadosUnicos pl g b := hi b (List.mem_cons_self _ _)
        rw [h3 i (fun b1 hb => hi b1 (List.mem_cons_of_mem _ hb)), hb3 i]
        cases ps[i]? with
        | none => rfl
        | some p => simp only [Option.map_some', hnot, if_false]

/-- A sequence of queries on a built index leaves the stored `relevancia` of a
record as it was loaded when no text query of the sequence finds the record in
the title trie or in the synopsis trie; tag queries never change it. -/
theorem relevancia_intacta (pl : Plataforma) (ps : List Pelicula) (g : GestorPeliculas)
    (fuel : Nat) (qs : List Consulta) (hg : Construido ps g)
    (hfuel : cotaCombustible ps ≤ fuel) :
    ∃ g1, ejecutar pl fuel g qs = some g1 ∧
      ∀ i,
        (∀ b, Consulta.texto b ∈ qs →
          i ∉ g.indiceTitulos.buscarPorPrefijo b ∧ i ∉ g.indiceSinopsis.buscarPorPrefijo b) →
        relevanciaDe g1.peliculas i = relevanciaDe ps i := by
  obtain ⟨ps1, h1, _, h3⟩ := ejecutar_construido pl fuel qs hg hfuel
  refine ⟨_, h1, ?_⟩
  intro i hi
  have hnot : ∀ b, Consulta.texto b ∈ qs → i ∉ resultadosUnicos pl g b := by
    intro b hb hmem
    rcases (mem_resultadosUnicos pl g b i).1 hmem with h | h
    · exact (hi b hb).1 h
    · exact (hi b hb).2 h
  show relevanciaDe ps1 i = relevanciaDe ps i
  unfold relevanciaDe
  rw [h3 i hnot]

/-! ## Main results on repeated and degenerate queries -/

/-- C11: in the two-record store of the specification the tag query for `romance`
returns both records; on the fresh build their stored scores are 0 and 0, but
after the text query for `love` their stored scores at the moment they are
returned are 4 and 1: `buscarPorTag` hands out the scores that the earlier text
query left on the records. -/
theorem C11_puntuacion_obsoleta :
    (buscarPorTag (construir peliculasEjemplo) "romance".toList).map
        (relevanciaDe (construir peliculasEjemplo).peliculas) = [0, 0] ∧
      (ejecutar plataformaSimple 16 (construir peliculasEjemplo)
          [Consulta.texto "love".toList]).map
        (fun g => (buscarPorTag g "romance".toList).map (relevanciaDe g.peliculas)) =
      some [4, 1] := by
  decide

/-- C12: with the empty term `calcularPuntuacion` does not return, whatever the
record and the number of loop iterations allowed; with a non-empty term a record
with empty title, empty synopsis and no tags scores 0. -/
theorem C12_termino_vacio (fuel : Nat) (pelicula : Pelicula) (n : Nat) (c : Char)
    (cs sp fs : List Char) (r : Nat) :
    calcularPuntuacion fuel pelicula [] n = none ∧
      calcularPuntuacion (fuel + 1)
        { titulo := [], sinopsis := [], tags := [], split := sp, fuente_sinopsis := fs,
          relevancia := r } (c :: cs) n = some 0 := by
  constructor
  · simp only [calcularPuntuacion, toLower, List.map_nil, contarOcurrencias_nil]
  · rw [calcularPuntuacion_eq (fuel + 1)
      { titulo := [], sinopsis := [], tags := [], split := sp, fuente_sinopsis := fs,
        relevancia := r } (c :: cs) n (List.cons_ne_nil c cs)
      (Nat.succ_pos fuel) (Nat.succ_pos fuel)]
    simp [scoreSpec, toLower, occurrences, occurrencesDesde]

/-- C13: in the index left by `indexarPelicula`, the text query for the empty term
returns the empty list (and changes nothing), and when no record has an empty
tag, `buscarPorTag` returns the empty list for every `t` made of whitespace only,
the empty `t` included. -/
theorem C13_consulta_vacia (pl : Plataforma) (ps : List Pelicula) (js : List Nat)
    (fuel : Nat) (t : List Char) (ht : ∀ c ∈ t, isspace c = true)
    (htags : ∀ p ∈ ps, [] ∉ p.tags) :
    buscarPorTituloOSinopsis pl fuel (indexarEnOrden ps js) [] =
        some ([], indexarEnOrden ps js) ∧
      buscarPorTag (indexarEnOrden ps js) t = [] := by
  refine ⟨buscar_nil (construido_indexarEnOrden ps js) pl fuel, ?_⟩
  rw [List.eq_nil_iff_forall_not_mem]
  intro i hi
  obtain ⟨_, p, hget, htag⟩ := (mem_buscarPorTag ps js t i).1 hi
  rw [normalizarTag_espacios t ht] at htag
  exact htags p (List.getElem?_mem hget) htag

/-- Witness for C13: the two-record store of the specification and a tag of two
spaces and a tab. -/
theorem C13_consulta_vacia_witness :
    (∀ c ∈ [' ', ' ', '\t'], isspace c = true) ∧
      (∀ p ∈ peliculasEjemplo, [] ∉ p.tags) ∧
      (buscarPorTituloOSinopsis plataformaSimple 0 (indexarEnOrden peliculasEjemplo [0, 1]) [] =
          some ([], indexarEnOrden peliculasEjemplo [0, 1]) ∧
        buscarPorTag (indexarEnOrden peliculasEjemplo [0, 1]) [' ', ' ', '\t'] = []) :=
  ⟨by decide, by decide,
    C13_consulta_vacia plataformaSimple peliculasEjemplo [0, 1] 0 [' ', ' ', '\t']
      (by decide) (by decide)⟩

/-- C14: on a built index, running the text query for `t` again on the state left
by the first run returns the same records in the same order and leaves the same
state, hence the same stored scores. -/
theorem C14_idempotencia (pl : Plataforma) (ps : List Pelicula) (g : GestorPeliculas)
    (fuel : Nat) (t : List Char) (hg : Construido ps g)
    (hfuel : cotaCombustible ps ≤ fuel) :
    ∃ res g1, buscarPorTituloOSinopsis pl fuel g t = some (res, g1) ∧
      buscarPorTituloOSinopsis pl fuel g1 t = some (res, g1) := by
  obtain ⟨ps1, h1, h2, h3⟩ := buscar_construido pl hg fuel hfuel t
  obtain ⟨ps2, k1, _, k3⟩ := buscar_construido pl (construido_peliculas hg h2) fuel
    (cota_puntuada h3 hfuel) t
  have e : ps2 = ps1 := puntuada_idem h3 k3
  subst e
  exact ⟨_, _, h1, k1⟩

/-- Witness for C14: the two-record store of the specification and the term `love`. -/
theorem C14_idempotencia_witness :
    Construido peliculasEjemplo (construir peliculasEjemplo) ∧
      cotaCombustible peliculasEjemplo ≤ 16 ∧
      ∃ res g1, buscarPorTituloOSinopsis plataformaSimple 16 (construir peliculasEjemplo)
          "love".toList = some (res, g1) ∧
        buscarPorTituloOSinopsis plataformaSimple 16 g1 "love".toList = some (res, g1) :=
  ⟨construido_indexarEnOrden _ _, by decide,
    C14_idempotencia plataformaSimple peliculasEjemplo (construir peliculasEjemplo) 16
      "love".toList (construido_indexarEnOrden _ _) (by decide)⟩

/-- C20 (counterexample): inserting the empty word into the empty trie changes the
trie: the terminal flag of the root goes from `false` to `true`. -/
theorem C20_contraejemplo :
    (Trie.vacio : Trie Nat).raiz.esFinDePalabra = false ∧
      ((Trie.vacio : Trie Nat).insertar [] 7).raiz.esFinDePalabra = true :=
  ⟨rfl, rfl⟩

/-- C20 (amended): `insertar` of the empty word creates no node and appends the
reference to no list: children and reference list of the root are as before; it
sets the terminal flag of the root.  Every `buscarPorPrefijo` result is the same
as before, and so is every `buscarPalabraExacta` result in a trie built from the
empty trie by `insertar` calls. -/
theorem C20_insertar_vacia {α : Type} (t : Trie α) (llamadas : List (List Char × α)) (r : α)
    (p w : List Char) :
    (t.insertar [] r).raiz.children = t.raiz.children ∧
      (t.insertar [] r).raiz.elementos = t.raiz.elementos ∧
      (t.insertar [] r).raiz.esFinDePalabra = true ∧
      (t.insertar [] r).buscarPorPrefijo p = t.buscarPorPrefijo p ∧
      ((Trie.deLlamadas llamadas).insertar [] r).buscarPalabraExacta w =
        (Trie.deLlamadas llamadas).buscarPalabraExacta w := by
  refine ⟨?_, ?_, ?_, ?_, ?_⟩
  · cases t with
    | mk raiz => cases raiz with
      | mk ch el fin => rfl
  · cases t with
    | mk raiz => cases raiz with
      | mk ch el fin => rfl
  · cases t with
    | mk raiz => cases raiz with
      | mk ch el fin => rfl
  · rw [Trie.buscarPorPrefijo_insertar]
    simp [toLower]
  · have hraiz : TrieNode.elementosEn [] (Trie.deLlamadas llamadas).raiz = [] := by
      have h := Trie.buscarPorPrefijo_deLlamadas llamadas []
      rw [Trie.buscarPorPrefijo_eq] at h
      simpa [toLower] using h
    rw [Trie.buscarPalabraExacta_eq, Trie.buscarPalabraExacta_eq]
    show (if TrieNode.finEn (toLower w)
        (TrieNode.insertarDesde r (toLower []) (Trie.deLlamadas llamadas).raiz) = true
      then TrieNode.elementosEn (toLower w)
        (TrieNode.insertarDesde r (toLower []) (Trie.deLlamadas llamadas).raiz) else []) = _
    rw [TrieNode.finEn_insertarDesde, TrieNode.elementosEn_insertarDesde]
    cases w with
    | nil =>
      have hl : toLower [] = [] := rfl
      simp [hl, hraiz]
    | cons c cs => simp [toLower]

/-! ## The ranges of the worker threads -/

theorem rangoHilo_lt (n W q i : Nat) (hi : i < W - 1) :
    rangoHilo n W q i = (i * q, (i + 1) * q) := by
  have h : ¬ i = W - 1 := by omega
  simp [rangoHilo, h]

theorem rangoHilo_ultimo (n W q : Nat) : rangoHilo n W q (W - 1) = ((W - 1) * q, n) := by
  simp [rangoHilo]

/-- The ranges of the first `k` workers, none of them the last, cover `0`, ...,
`k * q - 1` in order. -/
theorem rangos_primeros (n W q : Nat) :
    ∀ k, k ≤ W - 1 →
      ((List.range k).map (rangoHilo n W q)).flatMap
          (fun r => List.range' r.1 (r.2 - r.1)) = List.range (k * q) := by
  intro k
  induction k with
  | zero => intro _; simp
  | succ k ih =>
    intro hk
    rw [List.range_succ, List.map_append, List.flatMap_append, ih (by omega),
      List.map_singleton, List.flatMap_singleton, rangoHilo_lt n W q k (by omega)]
    have e : (k + 1) * q - k * q = q := by
      rw [Nat.succ_mul]; omega
    simp only [e, List.range_eq_range']
    have h := List.range'_append_1 0 (k * q) q
    simp only [Nat.zero_add] at h
    rw [h, Nat.succ_mul, Nat.add_comm]

theorem ultimo_le (n W : Nat) : (W - 1) * (n / W) ≤ n := by
  calc (W - 1) * (n / W) ≤ W * (n / W) := Nat.mul_le_mul_right _ (Nat.sub_le W 1)
    _ ≤ n := Nat.mul_div_le n W

/-- With at least one worker the ranges are computed, and laid end to end they are
`0`, ..., `total - 1`. -/
theorem rangos_cubren (n W : Nat) (hW : 1 ≤ W) :
    ∃ rs, rangos n W = some rs ∧
      rs = (List.range W).map (rangoHilo n W (n / W)) ∧
      rs.flatMap (fun r => List.range' r.1 (r.2 - r.1)) = List.range n := by
  have hW0 : ¬ W = 0 := by omega
  refine ⟨(List.range W).map (rangoHilo n W (n / W)), by simp [rangos, hW0], rfl, ?_⟩
  have hW1 : W = (W - 1) + 1 := by omega
  have hle := ultimo_le n W
  conv_lhs => rw [hW1, List.range_succ]
  rw [List.map_append, List.flatMap_append, List.map_singleton, List.flatMap_singleton]
  have h1 := rangos_primeros n (W - 1 + 1) (n / W) (W - 1) (by omega)
  rw [← hW1] at h1
  rw [← hW1, h1, rangoHilo_ultimo]
  simp only [List.range_eq_range']
  have h := List.range'_append_1 0 ((W - 1) * (n / W)) (n - (W - 1) * (n / W))
  simp only [Nat.zero_add] at h
  rw [h]
  congr 1
  omega

theorem foldl_trabajoHilo (rs : List (Nat × Nat)) :
    ∀ g : GestorPeliculas, rs.foldl trabajoHilo g =
      (rs.flatMap (fun r => List.range' r.1 (r.2 - r.1))).foldl indexarPelicula g := by
  induction rs with
  | nil => intro g; rfl
  | cons r rs ih =>
    intro g
    rw [List.foldl_cons, ih, List.flatMap_cons, List.foldl_append]
    rfl

/-- With at least one worker, the build in which the workers run one after the
other is the build that indexes the records in order. -/
theorem indexarPeliculasConcurrente_eq (W : Nat) (hW : 1 ≤ W) (ps : List Pelicula) :
    indexarPeliculasConcurrente W (sinIndexar ps) = some (construir ps) := by
  obtain ⟨rs, h1, _, h3⟩ := rangos_cubren ps.length W hW
  have hlen : (sinIndexar ps).peliculas.length = ps.length := rfl
  simp only [indexarPeliculasConcurrente, hlen, h1, foldl_trabajoHilo, h3]
  rfl

/-! ## Main results on the build -/

/-- C16: for `n` records and `W ≥ 1` workers the ranges are computed; there are `W` of
them; range `i` is `[i * (n / W), (i + 1) * (n / W))` for `i < W - 1` and the last
is `[(W - 1) * (n / W), n)`; every range has its start at or before its end; laid
end to end in order they are exactly `0`, ..., `n - 1`, so they are contiguous,
pairwise disjoint and contain every index once; a range other than the last has
`n / W` indices and the last has `n / W + n % W`. -/
theorem C16_rangos (n W : Nat) (hW : 1 ≤ W) :
    ∃ rs, rangos n W = some rs ∧ rs.length = W ∧
      (∀ i, i < W - 1 → rs[i]? = some (i * (n / W), (i + 1) * (n / W))) ∧
      rs[W - 1]? = some ((W - 1) * (n / W), n) ∧
      (∀ r ∈ rs, r.1 ≤ r.2) ∧
      rs.flatMap (fun r => List.range' r.1 (r.2 - r.1)) = List.range n ∧
      (∀ i r, rs[i]? = some r →
        r.2 - r.1 = if i = W - 1 then n / W + n % W else n / W) := by
  obtain ⟨rs, h1, h2, h3⟩ := rangos_cubren n W hW
  have hle := ultimo_le n W
  have hget : ∀ i, i < W → rs[i]? = some (rangoHilo n W (n / W) i) := by
    intro i hi
    rw [h2, List.getElem?_map, List.getElem?_range hi]
    rfl
  have hsize : n - (W - 1) * (n / W) = n / W + n % W := by
    have hdm := Nat.div_add_mod n W
    have hmul : (W - 1 + 1) * (n / W) = (W - 1) * (n / W) + n / W := Nat.succ_mul _ _
    rw [Nat.sub_add_cancel hW] at hmul
    rw [hmul] at hdm
    generalize (W - 1) * (n / W) = a at hdm ⊢
    generalize n / W = q at hdm ⊢
    generalize n % W = m at hdm ⊢
    omega
  refine ⟨rs, h1, by simp [h2], ?_, ?_, ?_, h3, ?_⟩
  · intro i hi
    rw [hget i (by omega), rangoHilo_lt n W _ i hi]
  · rw [hget (W - 1) (by omega), rangoHilo_ultimo]
  · intro r hr
    rw [h2] at hr
    obtain ⟨i, hi, hr⟩ := List.mem_map.1 hr
    have hiW : i < W := List.mem_range.1 hi
    subst hr
    by_cases hlast : i = W - 1
    · subst hlast
      rw [rangoHilo_ultimo]
      exact hle
    · rw [rangoHilo_lt n W _ i (by omega)]
      exact Nat.mul_le_mul_right _ (Nat.le_succ i)
  · intro i r hr
    have hiW : i < W := by
      have := (List.getElem?_eq_some_iff.1 hr).1
      simpa [h2] using this
    rw [hget i hiW] at hr
    have hr1 : rangoHilo n W (n / W) i = r := Option.some.inj hr
    subst hr1
    by_cases hlast : i = W - 1
    · subst hlast
      rw [rangoHilo_ultimo, if_pos rfl]
      exact hsize
    · rw [rangoHilo_lt n W _ i (by omega), if_neg hlast]
      show (i + 1) * (n / W) - i * (n / W) = n / W
      rw [Nat.succ_mul]
      exact Nat.add_sub_cancel_left _ _

/-- Witness for C16: ten records and three workers. -/
theorem C16_rangos_witness :
    1 ≤ 3 ∧
      ∃ rs, rangos 10 3 = some rs ∧ rs.length = 3 ∧
        (∀ i, i < 3 - 1 → rs[i]? = some (i * (10 / 3), (i + 1) * (10 / 3))) ∧
        rs[3 - 1]? = some ((3 - 1) * (10 / 3), 10) ∧
        (∀ r ∈ rs, r.1 ≤ r.2) ∧
        rs.flatMap (fun r => List.range' r.1 (r.2 - r.1)) = List.range 10 ∧
        (∀ i r, rs[i]? = some r →
          r.2 - r.1 = if i = 3 - 1 then 10 / 3 + 10 % 3 else 10 / 3) :=
  ⟨by decide, C16_rangos 10 3 (by decide)⟩

/-- C17: when the reported hardware parallelism is 0, `indexarPeliculasConcurrente`
does not get past the division by the worker count and indexes nothing; for every
reported value from 1 on, the worker count is that value and the build indexes
every record. -/
theorem C17_numHilos_cero (ps : List Pelicula) (h : Nat) :
    indexarPeliculasConcurrente 0 (sinIndexar ps) = none ∧
      indexarPeliculasConcurrente (h + 1) (sinIndexar ps) = some (construir ps) :=
  ⟨rfl, indexarPeliculasConcurrente_eq (h + 1) (Nat.succ_pos h) ps⟩

/-! ## Main result on the ranking of an exact title match -/

theorem occurrences_self (t : List Char) (ht : t ≠ []) : occurrences t t = 1 := by
  cases t with
  | nil => exact absurd rfl ht
  | cons c cs =>
    have hp : (c :: cs) <+: (c :: cs) := List.prefix_refl _
    unfold occurrences
    simp only [occurrencesDesde, hp, if_true]
    rw [occurrencesDesde_drop]
    simp [occurrencesDesde]

/-- C18: for a non-empty term `t` and records `A`, `B` with the same tags, where the
title of `A` equals `t` up to letter case, the title of `B` has no occurrence of `t`
and the synopsis of `B` has exactly one, `calcularPuntuacion` returns for both and
the score of `A` is strictly greater than that of `B`, whatever the synopsis of
`A`. -/
theorem C18_titulo_exacto_gana (fuel : Nat) (A B : Pelicula) (t : List Char) (n : Nat)
    (ht : t ≠ []) (htags : A.tags = B.tags)
    (hA : toLower A.titulo = toLower t)
    (hB1 : occurrences (toLower t) (toLower B.titulo) = 0)
    (hB2 : occurrences (toLower t) (toLower B.sinopsis) = 1)
    (fA1 : A.titulo.length < fuel) (fA2 : A.sinopsis.length < fuel)
    (fB1 : B.titulo.length < fuel) (fB2 : B.sinopsis.length < fuel) :
    ∃ sa sb, calcularPuntuacion fuel A t n = some sa ∧
      calcularPuntuacion fuel B t n = some sb ∧ sb < sa := by
  have hlt : toLower t ≠ [] := by simpa [toLower] using ht
  have hself := occurrences_self (toLower t) hlt
  have hBne : ¬ toLower B.titulo = toLower t := by
    intro h
    rw [h, hself] at hB1
    cases hB1
  refine ⟨_, _, calcularPuntuacion_eq fuel A t n ht fA1 fA2,
    calcularPuntuacion_eq fuel B t n ht fB1 fB2, ?_⟩
  unfold scoreSpec
  rw [hB1, hB2, if_neg hBne, hA, hself, if_pos rfl, htags]
  omega

/-- Witness for C18: the term `war`, a record titled `War` and a record whose
synopsis mentions war once. -/
theorem C18_titulo_exacto_gana_witness :
    ∃ sa sb,
      calcularPuntuacion 16
        { titulo := "War".toList, sinopsis := "love during war".toList,
          tags := ["drama".toList], split := [], fuente_sinopsis := [] } "war".toList 2 =
        some sa ∧
      calcularPuntuacion 16
        { titulo := "Peace".toList, sinopsis := "after the war".toList,
          tags := ["drama".toList], split := [], fuente_sinopsis := [] } "war".toList 2 =
        some sb ∧ sb < sa :=
  C18_titulo_exacto_gana 16
    { titulo := "War".toList, sinopsis := "love during war".toList,
      tags := ["drama".toList], split := [], fuente_sinopsis := [] }
    { titulo := "Peace".toList, sinopsis := "after the war".toList,
      tags := ["drama".toList], split := [], fuente_sinopsis := [] }
    "war".toList 2 (by decide) (by decide) (by decide) (by decide) (by decide)
    (by decide) (by decide) (by decide) (by decide)

/-! ## Facts about characters and trimming -/

theorem toNat_ofNat_minuscula (m : Nat) (h1 : 65 ≤ m) (h2 : m ≤ 90) :
    (Char.ofNat (m + 32)).toNat = m + 32 := by
  interval_cases m <;> rfl

theorem tolower_toNat (c : Char) :
    (tolower c).toNat = if 65 ≤ c.toNat ∧ c.toNat ≤ 90 then c.toNat + 32 else c.toNat := by
  unfold tolower
  by_cases h : 65 ≤ c.toNat ∧ c.toNat ≤ 90
  · rw [if_pos h, if_pos h]
    exact toNat_ofNat_minuscula c.toNat h.1 h.2
  · rw [if_neg h, if_neg h]

theorem isspace_iff (c : Char) :
    isspace c = true ↔ (c.toNat = 32 ∨ (9 ≤ c.toNat ∧ c.toNat ≤ 13)) := by
  simp [isspace]

theorem isspace_tolower (c : Char) : isspace (tolower c) = isspace c := by
  have h := tolower_toNat c
  rw [Bool.eq_iff_iff, isspace_iff, isspace_iff, h]
  split <;> omega

theorem tolower_no_mayuscula (c : Char) :
    ¬ (65 ≤ (tolower c).toNat ∧ (tolower c).toNat ≤ 90) := by
  rw [tolower_toNat]
  split <;> omega

theorem tolower_of_no_mayuscula (d : Char) (hd : ¬ (65 ≤ d.toNat ∧ d.toNat ≤ 90)) :
    tolower d = d := by
  unfold tolower
  rw [if_neg hd]

theorem tolower_idem (c : Char) : tolower (tolower c) = tolower c :=
  tolower_of_no_mayuscula (tolower c) (tolower_no_mayuscula c)

theorem eq_of_toNat_eq (c d : Char) (h : c.toNat = d.toNat) : c = d := by
  rw [← Char.ofNat_toNat c, ← Char.ofNat_toNat d, h]

theorem tolower_eq_coma (c : Char) (h : tolower c = ',') : c = ',' := by
  apply eq_of_toNat_eq
  have h1 : (tolower c).toNat = 44 := by rw [h]; rfl
  rw [tolower_toNat] at h1
  show c.toNat = 44
  split at h1 <;> omega

theorem dropWhile_eq_self_of_head (p : Char → Bool) (l : List Char)
    (h : ∀ c, l.head? = some c → p c = false) : l.dropWhile p = l := by
  cases l with
  | nil => rfl
  | cons c cs =>
    have hc : ¬ p c = true := by
      rw [h c rfl]; exact Bool.false_ne_true
    exact List.dropWhile_cons_of_neg hc

theorem head_dropWhile_isspace (l : List Char) :
    ∀ c, (l.dropWhile isspace).head? = some c → isspace c = false := by
  intro c hc
  have h := List.head?_dropWhile_not isspace l
  rw [hc] at h
  exact h

theorem limpiarTexto_recortado (s : List Char) : Recortado (limpiarTexto s) := by
  unfold limpiarTexto
  constructor
  · intro c hc
    have hpre : ((s.dropWhile isspace).reverse.dropWhile isspace).reverse <+:
        s.dropWhile isspace := by
      have h := List.dropWhile_suffix (l := (s.dropWhile isspace).reverse) isspace
      rw [← List.reverse_prefix, List.reverse_reverse] at h
      exact h
    obtain ⟨ys, hys⟩ := List.head?_eq_some_iff.1 hc
    obtain ⟨zs, hzs⟩ := hpre
    apply head_dropWhile_isspace s c
    rw [← hzs]
    simp only at hys
    rw [hys]
    rfl
  · intro c hc
    simp only [List.getLast?_reverse] at hc
    exact head_dropWhile_isspace _ c hc

theorem limpiarTexto_of_recortado (t : List Char) (h : Recortado t) : limpiarTexto t = t := by
  unfold limpiarTexto
  simp only
  rw [dropWhile_eq_self_of_head isspace t h.1,
    dropWhile_eq_self_of_head isspace t.reverse (by simpa using h.2), List.reverse_reverse]

theorem recortado_map_tolower (t : List Char) (h : Recortado t) :
    Recortado (t.map tolower) := by
  constructor
  · intro c hc
    rw [List.head?_map] at hc
    cases ht : t.head? with
    | none => rw [ht] at hc; cases hc
    | some d =>
      rw [ht] at hc
      simp only [Option.map_some', Option.some.injEq] at hc
      rw [← hc, isspace_tolower]
      exact h.1 d ht
  · intro c hc
    rw [List.getLast?_map] at hc
    cases ht : t.getLast? with
    | none => rw [ht] at hc; cases hc
    | some d =>
      rw [ht] at hc
      simp only [Option.map_some', Option.some.injEq] at hc
      rw [← hc, isspace_tolower]
      exact h.2 d ht

theorem limpiarTexto_subset (s : List Char) : ∀ c ∈ limpiarTexto s, c ∈ s := by
  intro c hc
  unfold limpiarTexto at hc
  simp only [List.mem_reverse] at hc
  have h1 := (List.dropWhile_suffix (l := (s.dropWhile isspace).reverse) isspace).mem hc
  rw [List.mem_reverse] at h1
  exact (List.dropWhile_suffix (l := s) isspace).mem h1

theorem getlineTodas_sin_delim (delim : Char) (s : List Char) :
    ∀ (actual pieza : List Char), delim ∉ actual →
      pieza ∈ getlineTodas delim s actual → delim ∉ pieza := by
  induction s with
  | nil =>
    intro actual pieza hact hp
    simp only [getlineTodas] at hp
    split at hp
    · cases hp
    · rw [List.mem_singleton.1 hp]; exact hact
  | cons c cs ih =>
    intro actual pieza hact hp
    simp only [getlineTodas] at hp
    split at hp
    · rcases List.mem_cons.1 hp with h | h
      · rw [h]; exact hact
      · exact ih [] pieza (List.not_mem_nil _) h
    · rename_i hne
      refine ih (actual ++ [c]) pieza ?_ hp
      intro hmem
      rcases List.mem_append.1 hmem with h | h
      · exact hact h
      · exact hne (List.mem_singleton.1 h).symm

theorem mem_procesarTagsBucle (piezas : List (List Char)) (t : List Char) :
    t ∈ procesarTagsBucle piezas →
      ∃ pieza ∈ piezas, limpiarTexto pieza ≠ [] ∧ t = normalizarTag (limpiarTexto pieza) := by
  induction piezas with
  | nil => intro h; cases h
  | cons q qs ih =>
    intro h
    simp only [procesarTagsBucle] at h
    split at h
    · obtain ⟨pieza, hp, h1, h2⟩ := ih h
      exact ⟨pieza, List.mem_cons_of_mem _ hp, h1, h2⟩
    · rename_i hne
      rcases List.mem_cons.1 h with h | h
      · exact ⟨q, List.mem_cons_self _ _, hne, h⟩
      · obtain ⟨pieza, hp, h1, h2⟩ := ih h
        exact ⟨pieza, List.mem_cons_of_mem _ hp, h1, h2⟩

/-! ## Main result on the ingestion of tags -/

/-- C19: every element of `procesarTags f` is non-empty, has no leading and no
trailing whitespace, contains no uppercase ASCII letter and no comma, and is left
as it is by `normalizarTag`. -/
theorem C19_tags_normalizados (f t : List Char) (ht : t ∈ procesarTags f) :
    t ≠ [] ∧
      (∀ c, t.head? = some c → isspace c = false) ∧
      (∀ c, t.getLast? = some c → isspace c = false) ∧
      (∀ c ∈ t, ¬ (65 ≤ c.toNat ∧ c.toNat ≤ 90)) ∧
      ',' ∉ t ∧
      normalizarTag t = t := by
  obtain ⟨pieza, hp, hne, heq⟩ := mem_procesarTagsBucle _ t ht
  have hrec := limpiarTexto_recortado pieza
  have hfix := limpiarTexto_of_recortado _ hrec
  have ht1 : t = (limpiarTexto pieza).map tolower := by
    rw [heq]
    unfold normalizarTag
    rw [hfix]
  have hrec1 : Recortado t := by
    rw [ht1]; exact recortado_map_tolower _ hrec
  refine ⟨?_, hrec1.1, hrec1.2, ?_, ?_, ?_⟩
  · rw [ht1]
    intro h
    exact hne (List.map_eq_nil_iff.1 h)
  · intro c hc
    rw [ht1] at hc
    obtain ⟨d, _, hd⟩ := List.mem_map.1 hc
    rw [← hd]
    exact tolower_no_mayuscula d
  · intro hc
    rw [ht1] at hc
    obtain ⟨d, hd, hdc⟩ := List.mem_map.1 hc
    have hcoma : d = ',' := tolower_eq_coma d hdc
    rw [hcoma] at hd
    exact getlineTodas_sin_delim ',' f [] pieza (List.not_mem_nil _) hp
      (limpiarTexto_subset pieza _ hd)
  · unfold normalizarTag
    rw [limpiarTexto_of_recortado t hrec1, ht1, List.map_map]
    apply List.map_congr_left
    intro c _
    exact tolower_idem c

/-- Witness for C19: the field ` Drama , ROMANCE,, sci fi ,` and its tag `sci fi`. -/
theorem C19_tags_normalizados_witness :
    "sci fi".toList ∈ procesarTags " Drama , ROMANCE,, sci fi ,".toList ∧
      normalizarTag "sci fi".toList = "sci fi".toList :=
  ⟨by decide,
    (C19_tags_normalizados " Drama , ROMANCE,, sci fi ,".toList "sci fi".toList
      (by decide)).2.2.2.2.2⟩

/-! ## Facts about the atomic steps of the build -/

theorem foldl_op_titulo (j : Nat) (ws : List (List Char)) :
    ∀ g : GestorPeliculas, ws.foldl (fun g w => aplicarOp g (Op.titulo w j)) g =
      { g with indiceTitulos := ws.foldl (fun t w => t.insertar w j) g.indiceTitulos } := by
  induction ws with
  | nil => intro g; rfl
  | cons w ws ih => intro g; rw [List.foldl_cons, ih]; rfl

theorem foldl_op_sinopsis (j : Nat) (ws : List (List Char)) :
    ∀ g : GestorPeliculas, ws.foldl (fun g w => aplicarOp g (Op.sinopsis w j)) g =
      { g with indiceSinopsis := ws.foldl (fun t w => t.insertar w j) g.indiceSinopsis } := by
  induction ws with
  | nil => intro g; rfl
  | cons w ws ih => intro g; rw [List.foldl_cons, ih]; rfl

theorem foldl_op_tag (j : Nat) (ws : List (List Char)) :
    ∀ g : GestorPeliculas, ws.foldl (fun g w => aplicarOp g (Op.tag w j)) g =
      { g with indiceTags := ws.foldl (fun ix w => ix.agregar w j) g.indiceTags } := by
  induction ws with
  | nil => intro g; rfl
  | cons w ws ih => intro g; rw [List.foldl_cons, ih]; rfl

/-- The function `indexarPelicula` is the sequence of its atomic steps. -/
theorem indexarPelicula_eq_ops (g : GestorPeliculas) (j : Nat) :
    indexarPelicula g j = (opsDe g.peliculas j).foldl aplicarOp g := by
  unfold indexarPelicula opsDe llamadasTitulo llamadasSinopsis llamadasTags
  cases g.peliculas[j]? with
  | none => rfl
  | some pelicula =>
    simp only [List.map_map, List.foldl_append, List.foldl_map, Function.comp_def,
      foldl_op_titulo, foldl_op_sinopsis, foldl_op_tag]

theorem peliculas_foldl_aplicarOp (ops : List Op) :
    ∀ g : GestorPeliculas, (ops.foldl aplicarOp g).peliculas = g.peliculas := by
  induction ops with
  | nil => intro g; rfl
  | cons op ops ih =>
    intro g
    rw [List.foldl_cons, ih]
    cases op <;> rfl

theorem foldl_indexarPelicula_eq_ops (js : List Nat) :
    ∀ g : GestorPeliculas, js.foldl indexarPelicula g =
      (js.flatMap (opsDe g.peliculas)).foldl aplicarOp g := by
  induction js with
  | nil => intro g; rfl
  | cons j js ih =>
    intro g
    rw [List.foldl_cons, ih, List.flatMap_cons, List.foldl_append, indexarPelicula_eq_ops,
      peliculas_foldl_aplicarOp]

/-- The build with a single worker is the sequence of all atomic steps. -/
theorem aplicarOps_opsTodas (ps : List Pelicula) : aplicarOps ps (opsTodas ps) = construir ps := by
  unfold construir indexarEnOrden aplicarOps opsTodas
  rw [foldl_indexarPelicula_eq_ops]
  rfl

theorem rastro_foldl_aplicarOp {ps : List Pelicula} (ops : List Op) :
    ∀ {g : GestorPeliculas} {lt ls lk : List (List Char × Nat)}, Rastro ps g lt ls lk →
      Rastro ps (ops.foldl aplicarOp g) (lt ++ llamadasTituloDe ops)
        (ls ++ llamadasSinopsisDe ops) (lk ++ llamadasTagsDe ops) := by
  induction ops with
  | nil =>
    intro g lt ls lk h
    simpa [llamadasTituloDe, llamadasSinopsisDe, llamadasTagsDe] using h
  | cons op ops ih =>
    intro g lt ls lk h
    obtain ⟨h1, h2, h3, h4⟩ := h
    cases op with
    | titulo w j =>
      have hstep : Rastro ps (aplicarOp g (Op.titulo w j)) (lt ++ [(w, j)]) ls lk :=
        ⟨h1, by rw [Trie.deLlamadas_insertar, ← h2]; rfl, h3, h4⟩
      have := ih hstep
      simpa [llamadasTituloDe, llamadasSinopsisDe, llamadasTagsDe, List.filterMap_cons]
        using this
    | sinopsis w j =>
      have hstep : Rastro ps (aplicarOp g (Op.sinopsis w j)) lt (ls ++ [(w, j)]) lk :=
        ⟨h1, h2, by rw [Trie.deLlamadas_insertar, ← h3]; rfl, h4⟩
      have := ih hstep
      simpa [llamadasTituloDe, llamadasSinopsisDe, llamadasTagsDe, List.filterMap_cons]
        using this
    | tag w j =>
      have hstep : Rastro ps (aplicarOp g (Op.tag w j)) lt ls (lk ++ [(w, j)]) :=
        ⟨h1, h2, h3, by rw [IndiceGenerico.deLlamadas_agregar, ← h4]; rfl⟩
      have := ih hstep
      simpa [llamadasTituloDe, llamadasSinopsisDe, llamadasTagsDe, List.filterMap_cons]
        using this

/-- The indexes after the atomic steps `ops` are those of the three call sequences
contained in `ops`. -/
theorem rastro_aplicarOps (ps : List Pelicula) (ops : List Op) :
    Rastro ps (aplicarOps ps ops) (llamadasTituloDe ops) (llamadasSinopsisDe ops)
      (llamadasTagsDe ops) := by
  have h0 : Rastro ps (sinIndexar ps) [] [] [] := ⟨rfl, rfl, rfl, rfl⟩
  simpa using rastro_foldl_aplicarOp ops h0

theorem construido_aplicarOps (ps : List Pelicula) (ops : List Op)
    (hval : ∀ op ∈ ops, op.ref < ps.length) : Construido ps (aplicarOps ps ops) := by
  unfold aplicarOps
  have key : ∀ (l : List Op) (g : GestorPeliculas), (∀ op ∈ l, op.ref < ps.length) →
      Construido ps g → Construido ps (l.foldl aplicarOp g) := by
    intro l
    induction l with
    | nil => intro g _ h; exact h
    | cons op l ih =>
      intro g hv h
      have hop := hv op (List.mem_cons_self _ _)
      refine ih _ (fun o ho => hv o (List.mem_cons_of_mem _ ho)) ?_
      cases op with
      | titulo w j => exact Construido.titulo w j h hop
      | sinopsis w j => exact Construido.sinopsis w j h hop
      | tag w j => exact Construido.tag w j h hop
  exact key ops _ hval Construido.inicio

theorem ref_opsDe (ps : List Pelicula) (j : Nat) : ∀ op ∈ opsDe ps j, op.ref < ps.length := by
  intro op hop
  unfold opsDe llamadasTitulo llamadasSinopsis llamadasTags at hop
  cases hget : ps[j]? with
  | none => simp [hget] at hop
  | some p =>
    have hj : j < ps.length := (List.getElem?_eq_some_iff.1 hget).1
    simp only [hget, List.map_map, List.mem_append, List.mem_map, Function.comp_def] at hop
    rcases hop with (⟨w, _, h⟩ | ⟨w, _, h⟩) | ⟨w, _, h⟩ <;> (rw [← h]; exact hj)

theorem ref_opsTodas (ps : List Pelicula) : ∀ op ∈ opsTodas ps, op.ref < ps.length := by
  intro op hop
  obtain ⟨j, _, hj⟩ := List.mem_flatMap.1 hop
  exact ref_opsDe ps j op hj

/-- An interleaving of step sequences is a rearrangement of their concatenation. -/
theorem intercalado_perm {hilos : List (List Op)} {ops : List Op}
    (h : Intercalado hilos ops) : ops.Perm hilos.flatten := by
  induction h with
  | fin hilos hall =>
    rw [List.flatten_eq_nil_iff.2 hall]
  | paso antes despues op resto ops _ ih =>
    simp only [List.flatten_append, List.flatten_cons, List.cons_append] at ih ⊢
    exact (List.Perm.cons op ih).trans List.perm_middle.symm

theorem intercalado_vacio_cons {hilos : List (List Op)} {ops : List Op}
    (h : Intercalado hilos ops) : Intercalado ([] :: hilos) ops := by
  induction h with
  | fin hilos hall =>
    refine Intercalado.fin _ ?_
    intro x hx
    rcases List.mem_cons.1 hx with hx | hx
    · exact hx
    · exact hall x hx
  | paso antes despues op resto ops _ ih =>
    exact Intercalado.paso ([] :: antes) despues op resto ops ih

/-- Running the threads one after the other is one of the interleavings. -/
theorem intercalado_flatten (hilos : List (List Op)) : Intercalado hilos hilos.flatten := by
  induction hilos with
  | nil => exact Intercalado.fin [] (fun _ hx => absurd hx (List.not_mem_nil _))
  | cons h hilos ih =>
    induction h with
    | nil => exact intercalado_vacio_cons ih
    | cons op resto ih2 => exact Intercalado.paso [] hilos op resto _ ih2

/-- Every schedule of the worker threads, for any worker count from 1 on, performs
a rearrangement of the atomic steps of the build with a single worker. -/
theorem intercalado_perm_opsTodas (ps : List Pelicula) (W : Nat) (hilos : List (List Op))
    (ops : List Op) (hW : hilosDe ps W = some hilos) (h : Intercalado hilos ops) :
    ops.Perm (opsTodas ps) := by
  have hW1 : 1 ≤ W := by
    cases W with
    | zero => simp [hilosDe, rangos] at hW
    | succ k => exact Nat.succ_pos k
  obtain ⟨rs, h1, _, h3⟩ := rangos_cubren ps.length W hW1
  simp only [hilosDe, h1, Option.some.injEq] at hW
  have hflat : hilos.flatten = opsTodas ps := by
    rw [← hW]
    unfold opsTodas
    rw [← h3, List.flatMap_assoc, List.flatMap_def]
    rfl
  rw [← hflat]
  exact intercalado_perm h

/-! ## Main result on the order of the build -/

/-- C15: let `ops` and `ops1` be two orders of the atomic steps (`insertar` and
`agregar` calls) of the build of the store `ps`; every interleaving of the worker
threads is such an order.  Then for every prefix the two title tries return
rearrangements of the same list, so do the two synopsis tries, and for every key
so do the two tag indexes; and the text query returns on both, with the same set
of records (as lists, rearrangements of each other) and the same stored scores. -/
theorem C15_orden_indiferente (pl : Plataforma) (ps : List Pelicula) (ops ops1 : List Op)
    (fuel : Nat) (t : List Char) (h : ops.Perm (opsTodas ps)) (h1 : ops1.Perm (opsTodas ps))
    (hfuel : cotaCombustible ps ≤ fuel) :
    (∀ p, ((aplicarOps ps ops).indiceTitulos.buscarPorPrefijo p).Perm
        ((aplicarOps ps ops1).indiceTitulos.buscarPorPrefijo p)) ∧
      (∀ p, ((aplicarOps ps ops).indiceSinopsis.buscarPorPrefijo p).Perm
        ((aplicarOps ps ops1).indiceSinopsis.buscarPorPrefijo p)) ∧
      (∀ k, ((aplicarOps ps ops).indiceTags.buscar k).Perm
        ((aplicarOps ps ops1).indiceTags.buscar k)) ∧
      ∃ res g res1 g1,
        buscarPorTituloOSinopsis pl fuel (aplicarOps ps ops) t = some (res, g) ∧
        buscarPorTituloOSinopsis pl fuel (aplicarOps ps ops1) t = some (res1, g1) ∧
        (∀ i, i ∈ res ↔ i ∈ res1) ∧ res.Perm res1 ∧
        ∀ i, relevanciaDe g.peliculas i = relevanciaDe g1.peliculas i := by
  have hperm : ops.Perm ops1 := h.trans h1.symm
  obtain ⟨_, ht, hs, hk⟩ := rastro_aplicarOps ps ops
  obtain ⟨_, ht1, hs1, hk1⟩ := rastro_aplicarOps ps ops1
  have hT : ∀ p, ((aplicarOps ps ops).indiceTitulos.buscarPorPrefijo p).Perm
      ((aplicarOps ps ops1).indiceTitulos.buscarPorPrefijo p) := by
    intro p
    rw [ht, ht1, Trie.buscarPorPrefijo_deLlamadas, Trie.buscarPorPrefijo_deLlamadas]
    exact ((hperm.filterMap _).filter _).map _
  have hS : ∀ p, ((aplicarOps ps ops).indiceSinopsis.buscarPorPrefijo p).Perm
      ((aplicarOps ps ops1).indiceSinopsis.buscarPorPrefijo p) := by
    intro p
    rw [hs, hs1, Trie.buscarPorPrefijo_deLlamadas, Trie.buscarPorPrefijo_deLlamadas]
    exact ((hperm.filterMap _).filter _).map _
  have hK : ∀ k, ((aplicarOps ps ops).indiceTags.buscar k).Perm
      ((aplicarOps ps ops1).indiceTags.buscar k) := by
    intro k
    rw [hk, hk1, IndiceGenerico.buscar_deLlamadas, IndiceGenerico.buscar_deLlamadas]
    exact ((hperm.filterMap _).filter _).map _
  have hg := construido_aplicarOps ps ops
    (fun op hop => ref_opsTodas ps op (h.mem_iff.1 hop))
  have hg1 := construido_aplicarOps ps ops1
    (fun op hop => ref_opsTodas ps op (h1.mem_iff.1 hop))
  obtain ⟨qs, a1, _, a3⟩ := buscar_construido pl hg fuel hfuel t
  obtain ⟨qs1, b1, _, b3⟩ := buscar_construido pl hg1 fuel hfuel t
  have hmem : ∀ i, i ∈ resultadosUnicos pl (aplicarOps ps ops) t ↔
      i ∈ resultadosUnicos pl (aplicarOps ps ops1) t := by
    intro i
    rw [mem_resultadosUnicos, mem_resultadosUnicos, (hT t).mem_iff, (hS t).mem_iff]
  have hqs : qs = qs1 := by
    apply List.ext_getElem?
    intro k
    rw [a3 k, b3 k]
    cases ps[k]? with
    | none => rfl
    | some p => simp only [Option.map_some', hmem k]
  subst hqs
  have hmemres : ∀ i, i ∈ sort (fun a b => decide (relevanciaDe qs a > relevanciaDe qs b))
        (resultadosUnicos pl (aplicarOps ps ops) t) ↔
      i ∈ sort (fun a b => decide (relevanciaDe qs a > relevanciaDe qs b))
        (resultadosUnicos pl (aplicarOps ps ops1) t) := by
    intro i
    rw [(sort_perm _ _).mem_iff, (sort_perm _ _).mem_iff]
    exact hmem i
  refine ⟨hT, hS, hK, _, _, _, _, a1, b1, hmemres, ?_, fun _ => rfl⟩
  exact (List.perm_ext_iff_of_nodup
    ((sort_perm _ _).nodup_iff.2 (nodup_resultadosUnicos pl _ t))
    ((sort_perm _ _).nodup_iff.2 (nodup_resultadosUnicos pl _ t))).2 hmemres

/-- Witness for C15: the atomic steps of the two-record store of the specification
in the order of a single worker and in the opposite order. -/
theorem C15_orden_indiferente_witness :
    (∀ p, ((aplicarOps peliculasEjemplo (opsTodas peliculasEjemplo)).indiceTitulos.buscarPorPrefijo
          p).Perm
        ((aplicarOps peliculasEjemplo
          (opsTodas peliculasEjemplo).reverse).indiceTitulos.buscarPorPrefijo p)) ∧
      (∀ p, ((aplicarOps peliculasEjemplo
          (opsTodas peliculasEjemplo)).indiceSinopsis.buscarPorPrefijo p).Perm
        ((aplicarOps peliculasEjemplo
          (opsTodas peliculasEjemplo).reverse).indiceSinopsis.buscarPorPrefijo p)) ∧
      (∀ k, ((aplicarOps peliculasEjemplo (opsTodas peliculasEjemplo)).indiceTags.buscar k).Perm
        ((aplicarOps peliculasEjemplo (opsTodas peliculasEjemplo).reverse).indiceTags.buscar
          k)) ∧
      ∃ res g res1 g1,
        buscarPorTituloOSinopsis plataformaSimple 16
          (aplicarOps peliculasEjemplo (opsTodas peliculasEjemplo)) "love".toList =
            some (res, g) ∧
        buscarPorTituloOSinopsis plataformaSimple 16
          (aplicarOps peliculasEjemplo (opsTodas peliculasEjemplo).reverse) "love".toList =
            some (res1, g1) ∧
        (∀ i, i ∈ res ↔ i ∈ res1) ∧ res.Perm res1 ∧
        ∀ i, relevanciaDe g.peliculas i = relevanciaDe g1.peliculas i :=
  C15_orden_indiferente plataformaSimple peliculasEjemplo (opsTodas peliculasEjemplo)
    (opsTodas peliculasEjemplo).reverse 16 "love".toList (List.Perm.refl _)
    (List.reverse_perm _) (by decide)

/-! ## Facts about non-overlapping occurrences -/

theorem ocurrencias_bajar (pat s : List Char) (k : Nat) (sel : List Nat)
    (hk : ∀ j ∈ sel, k ≤ j) (hocc : ∀ j ∈ sel, pat <+: s.drop j)
    (hpw : sel.Pairwise (fun i j => i + pat.length ≤ j)) :
    (∀ j ∈ sel.map (fun j => j - k), pat <+: (s.drop k).drop j) ∧
      (sel.map (fun j => j - k)).Pairwise (fun i j => i + pat.length ≤ j) := by
  constructor
  · intro j1 hj1
    obtain ⟨j, hj, heq⟩ := List.mem_map.1 hj1
    have hkj := hk j hj
    rw [← heq, List.drop_drop, Nat.add_sub_cancel' hkj]
    exact hocc j hj
  · refine List.pairwise_map.2 (hpw.imp_of_mem ?_)
    intro a b ha hb hab
    have h1 := hk a ha
    have h2 := hk b hb
    show a - k + pat.length ≤ b - k
    omega

theorem ocurrencias_subir (pat s : List Char) (k : Nat) (sel : List Nat)
    (hocc : ∀ j ∈ sel, pat <+: (s.drop k).drop j)
    (hpw : sel.Pairwise (fun i j => i + pat.length ≤ j)) :
    (∀ j ∈ sel.map (fun j => j + k), pat <+: s.drop j) ∧
      (sel.map (fun j => j + k)).Pairwise (fun i j => i + pat.length ≤ j) := by
  constructor
  · intro j1 hj1
    obtain ⟨j, hj, heq⟩ := List.mem_map.1 hj1
    have h := hocc j hj
    rw [List.drop_drop, Nat.add_comm] at h
    rw [← heq]
    exact h
  · refine List.pairwise_map.2 (hpw.imp ?_)
    intro a b hab
    show a + k + pat.length ≤ b + k
    omega

theorem occurrencesDesde_tomar (pat : List Char) (hpat : pat ≠ []) (c : Char) (cs : List Char)
    (hp : pat <+: c :: cs) :
    occurrencesDesde pat (c :: cs) 0 =
      1 + occurrencesDesde pat ((c :: cs).drop pat.length) 0 := by
  have hl : pat.length = (pat.length - 1) + 1 := by
    have := List.length_pos.2 hpat
    omega
  simp only [occurrencesDesde, hp, if_true]
  rw [occurrencesDesde_drop pat cs (pat.length - 1)]
  conv_rhs => rw [hl, List.drop_succ_cons]

theorem occurrencesDesde_saltar (pat : List Char) (c : Char) (cs : List Char)
    (hp : ¬ pat <+: c :: cs) :
    occurrencesDesde pat (c :: cs) 0 = occurrencesDesde pat cs 0 := by
  simp only [occurrencesDesde, hp, if_false]

/-- No family of left-to-right non-overlapping occurrences is larger than the count
of the scan. -/
theorem voraz_cota (pat : List Char) (hpat : pat ≠ []) :
    ∀ (n : Nat) (s : List Char) (sel : List Nat), s.length ≤ n →
      (∀ i ∈ sel, pat <+: s.drop i) →
      sel.Pairwise (fun i j => i + pat.length ≤ j) →
      sel.length ≤ occurrencesDesde pat s 0 := by
  have hm : 0 < pat.length := List.length_pos.2 hpat
  intro n
  induction n with
  | zero =>
    intro s sel hs hocc _
    cases sel with
    | nil => exact Nat.zero_le _
    | cons i rest =>
      have hs0 : s = [] := List.length_eq_zero.1 (Nat.le_zero.1 hs)
      have h := hocc i (List.mem_cons_self _ _)
      rw [hs0, List.drop_nil] at h
      exact absurd (List.prefix_nil.1 h) hpat
  | succ n ih =>
    intro s sel hs hocc hpw
    cases sel with
    | nil => exact Nat.zero_le _
    | cons i rest =>
      cases s with
      | nil =>
        have h := hocc i (List.mem_cons_self _ _)
        rw [List.drop_nil] at h
        exact absurd (List.prefix_nil.1 h) hpat
      | cons c cs =>
        have hcs : cs.length ≤ n := by simpa using hs
        rw [List.pairwise_cons] at hpw
        by_cases hp : pat <+: c :: cs
        · rw [occurrencesDesde_tomar pat hpat c cs hp]
          have hk : ∀ j ∈ rest, pat.length ≤ j := by
            intro j hj
            have := hpw.1 j hj
            omega
          obtain ⟨h1, h2⟩ := ocurrencias_bajar pat (c :: cs) pat.length rest hk
            (fun j hj => hocc j (List.mem_cons_of_mem _ hj)) hpw.2
          have hlen : ((c :: cs).drop pat.length).length ≤ n := by
            rw [List.length_drop, List.length_cons]
            omega
          have := ih _ _ hlen h1 h2
          rw [List.length_map] at this
          rw [List.length_cons]
          omega
        · rw [occurrencesDesde_saltar pat c cs hp]
          have hi : 1 ≤ i := by
            rcases Nat.eq_zero_or_pos i with h0 | h0
            · exfalso
              have h := hocc i (List.mem_cons_self _ _)
              rw [h0] at h
              exact hp h
            · exact h0
          have hk : ∀ j ∈ i :: rest, 1 ≤ j := by
            intro j hj
            rcases List.mem_cons.1 hj with h | h
            · rw [h]; exact hi
            · have := hpw.1 j h
              omega
          obtain ⟨h1, h2⟩ := ocurrencias_bajar pat (c :: cs) 1 (i :: rest) hk hocc
            (List.pairwise_cons.2 hpw)
          have := ih cs _ hcs h1 h2
          rw [List.length_map] at this
          exact this

/-- The scan itself yields a family of left-to-right non-overlapping occurrences. -/
theorem voraz_existe (pat : List Char) (hpat : pat ≠ []) :
    ∀ (n : Nat) (s : List Char), s.length ≤ n →
      ∃ sel : List Nat, (∀ i ∈ sel, pat <+: s.drop i) ∧
        sel.Pairwise (fun i j => i + pat.length ≤ j) ∧
        sel.length = occurrencesDesde pat s 0 := by
  have hm : 0 < pat.length := List.length_pos.2 hpat
  intro n
  induction n with
  | zero =>
    intro s hs
    have hs0 : s = [] := List.length_eq_zero.1 (Nat.le_zero.1 hs)
    subst hs0
    exact ⟨[], fun _ h => absurd h (List.not_mem_nil _), List.Pairwise.nil, rfl⟩
  | succ n ih =>
    intro s hs
    cases s with
    | nil => exact ⟨[], fun _ h => absurd h (List.not_mem_nil _), List.Pairwise.nil, rfl⟩
    | cons c cs =>
      have hcs : cs.length ≤ n := by simpa using hs
      by_cases hp : pat <+: c :: cs
      · have hlen : ((c :: cs).drop pat.length).length ≤ n := by
          rw [List.length_drop, List.length_cons]
          omega
        obtain ⟨sel, h1, h2, h3⟩ := ih _ hlen
        obtain ⟨k1, k2⟩ := ocurrencias_subir pat (c :: cs) pat.length sel h1 h2
        refine ⟨0 :: sel.map (fun j => j + pat.length), ?_, ?_, ?_⟩
        · intro i hi
          rcases List.mem_cons.1 hi with h | h
          · rw [h]; exact hp
          · exact k1 i h
        · rw [List.pairwise_cons]
          refine ⟨?_, k2⟩
          intro j hj
          obtain ⟨j0, _, heq⟩ := List.mem_map.1 hj
          omega
        · rw [occurrencesDesde_tomar pat hpat c cs hp, List.length_cons, List.length_map, h3]
          omega
      · obtain ⟨sel, h1, h2, h3⟩ := ih cs hcs
        obtain ⟨k1, k2⟩ := ocurrencias_subir pat (c :: cs) 1 sel h1 h2
        refine ⟨sel.map (fun j => j + 1), k1, k2, ?_⟩
        rw [occurrencesDesde_saltar pat c cs hp, List.length_map, h3]

/-- Positions of pairwise non-overlapping occurrences can be listed from left to
right. -/
theorem noSolapadas_ordenar (pat text : List Char) (hpat : pat ≠ []) (sel : List Nat)
    (h : NoSolapadas pat text sel) :
    ∃ sel1 : List Nat, sel1.length = sel.length ∧ (∀ i ∈ sel1, pat <+: text.drop i) ∧
      sel1.Pairwise (fun i j => i + pat.length ≤ j) := by
  have hm : 0 < pat.length := List.length_pos.2 hpat
  have hperm := List.perm_insertionSort (fun a b : Nat => a ≤ b) sel
  have hsorted : (sel.insertionSort (fun a b : Nat => a ≤ b)).Pairwise (fun a b => a ≤ b) :=
    List.sorted_insertionSort (fun a b : Nat => a ≤ b) sel
  have hsym : (sel.insertionSort (fun a b : Nat => a ≤ b)).Pairwise
      (fun i j => i + pat.length ≤ j ∨ j + pat.length ≤ i) :=
    (hperm.pairwise_iff (fun hxy => hxy.symm)).2 h.2
  refine ⟨sel.insertionSort (fun a b : Nat => a ≤ b), hperm.length_eq, ?_, ?_⟩
  · intro i hi
    exact h.1 i (hperm.mem_iff.1 hi)
  · refine (hsorted.and hsym).imp ?_
    rintro a b ⟨hab, h1 | h1⟩
    · exact h1
    · omega

theorem occurrences_pos_iff (pat text : List Char) (hpat : pat ≠ []) :
    1 ≤ occurrences pat text ↔ pat <:+: text := by
  unfold occurrences
  constructor
  · intro h
    obtain ⟨sel, h1, _, h3⟩ := voraz_existe pat hpat text.length text (Nat.le_refl _)
    cases sel with
    | nil => rw [← h3] at h; cases h
    | cons i rest =>
      have hi := h1 i (List.mem_cons_self _ _)
      exact List.infix_iff_prefix_suffix.2 ⟨_, hi, List.drop_suffix i text⟩
  · rintro ⟨a, b, hab⟩
    have hocc : ∀ i ∈ [a.length], pat <+: text.drop i := by
      intro i hi
      rw [List.mem_singleton.1 hi, ← hab, List.append_assoc, List.drop_left]
      exact List.prefix_append _ _
    exact voraz_cota pat hpat text.length text [a.length] (Nat.le_refl _) hocc
      (List.pairwise_singleton _ _)

/-! ## Main results on occurrence counting and trimming -/

/-- C21: for a non-empty pattern `contarOcurrencias` returns (within one more loop
iteration than the text has characters) the number `n` of matches of the
left-to-right scan that resumes just past each match; no family of pairwise
non-overlapping occurrences of the pattern in the text has more than `n` members
and some family has exactly `n`; `n` is 0 exactly when the pattern is not a
substring of the text.  For the pattern `aa` it is 2 in `aaaa` and 1 in `aaa`. -/
theorem C21_contarOcurrencias (fuel : Nat) (texto patron : List Char) (hpat : patron ≠ [])
    (hfuel : texto.length < fuel) :
    (∃ n, contarOcurrencias fuel texto patron = some n ∧
      n = occurrences patron texto ∧
      (∀ sel, NoSolapadas patron texto sel → sel.length ≤ n) ∧
      (∃ sel, NoSolapadas patron texto sel ∧ sel.length = n) ∧
      (n = 0 ↔ ¬ patron <:+: texto)) ∧
      contarOcurrencias 5 "aaaa".toList "aa".toList = some 2 ∧
      contarOcurrencias 4 "aaa".toList "aa".toList = some 1 := by
  refine ⟨⟨_, contarOcurrencias_eq fuel texto patron hpat hfuel, rfl, ?_, ?_, ?_⟩,
    by decide, by decide⟩
  · intro sel hsel
    obtain ⟨sel1, hlen, h1, h2⟩ := noSolapadas_ordenar patron texto hpat sel hsel
    rw [← hlen]
    exact voraz_cota patron hpat texto.length texto sel1 (Nat.le_refl _) h1 h2
  · obtain ⟨sel, h1, h2, h3⟩ := voraz_existe patron hpat texto.length texto (Nat.le_refl _)
    exact ⟨sel, ⟨h1, h2.imp (fun hab => Or.inl hab)⟩, h3⟩
  · have h := occurrences_pos_iff patron texto hpat
    constructor
    · intro h0 hinf
      have := h.2 hinf
      omega
    · intro hnot
      by_contra hne
      exact hnot (h.1 (Nat.one_le_iff_ne_zero.2 hne))

/-- Witness for C21: the pattern `ab` in `xabab`. -/
theorem C21_contarOcurrencias_witness :
    "ab".toList ≠ [] ∧ "xabab".toList.length < 6 ∧
      contarOcurrencias 6 "xabab".toList "ab".toList = some 2 := by
  obtain ⟨⟨n, h1, h2, _⟩, _⟩ :=
    C21_contarOcurrencias 6 "xabab".toList "ab".toList (by decide) (by decide)
  refine ⟨by decide, by decide, ?_⟩
  rw [h1, h2]
  decide

/-- C22: `limpiarTexto s` is `s` without a leading piece and a trailing piece that
consist of whitespace only; it is empty exactly when `s` consists of whitespace
only (the empty `s` included); otherwise its first and its last character are not
whitespace; and cleaning a second time changes nothing. -/
theorem C22_limpiarTexto (s : List Char) :
    (∃ a b, s = a ++ limpiarTexto s ++ b ∧
      (∀ c ∈ a, isspace c = true) ∧ (∀ c ∈ b, isspace c = true)) ∧
      (limpiarTexto s = [] ↔ ∀ c ∈ s, isspace c = true) ∧
      (∀ c, (limpiarTexto s).head? = some c → isspace c = false) ∧
      (∀ c, (limpiarTexto s).getLast? = some c → isspace c = false) ∧
      limpiarTexto (limpiarTexto s) = limpiarTexto s := by
  have hsplit : ∃ a b, s = a ++ limpiarTexto s ++ b ∧
      (∀ c ∈ a, isspace c = true) ∧ (∀ c ∈ b, isspace c = true) := by
    refine ⟨s.takeWhile isspace,
      ((s.dropWhile isspace).reverse.takeWhile isspace).reverse, ?_, ?_, ?_⟩
    · have h1 := List.takeWhile_append_dropWhile isspace s
      have h2 := List.takeWhile_append_dropWhile isspace (s.dropWhile isspace).reverse
      have h3 : s.dropWhile isspace =
          ((s.dropWhile isspace).reverse.dropWhile isspace).reverse ++
            ((s.dropWhile isspace).reverse.takeWhile isspace).reverse := by
        rw [← List.reverse_append, h2, List.reverse_reverse]
      unfold limpiarTexto
      simp only
      rw [List.append_assoc, ← h3, h1]
    · intro c hc
      exact List.mem_takeWhile_imp hc
    · intro c hc
      rw [List.mem_reverse] at hc
      exact List.mem_takeWhile_imp hc
  have hrec := limpiarTexto_recortado s
  refine ⟨hsplit, ?_, hrec.1, hrec.2, limpiarTexto_of_recortado _ hrec⟩
  constructor
  · intro hnil c hc
    obtain ⟨a, b, hab, ha, hb⟩ := hsplit
    rw [hab, hnil, List.append_nil] at hc
    rcases List.mem_append.1 hc with h | h
    · exact ha c h
    · exact hb c h
  · exact limpiarTexto_espacios s

/-! ## Facts about the extracted words -/

/-- Every word extracted by `stream >> palabra` is non-empty, has no whitespace
and is a contiguous piece of the text. -/
theorem mem_palabrasDesde :
    ∀ (s actual w : List Char), (∀ c ∈ actual, isspace c = false) →
      w ∈ palabrasDesde s actual →
      w ≠ [] ∧ (∀ c ∈ w, isspace c = false) ∧ w <:+: actual ++ s := by
  intro s
  induction s with
  | nil =>
    intro actual w hact hw
    simp only [palabrasDesde] at hw
    split at hw
    · cases hw
    · rename_i hne
      rw [List.mem_singleton.1 hw]
      exact ⟨hne, hact, by rw [List.append_nil]⟩
  | cons c cs ih =>
    intro actual w hact hw
    simp only [palabrasDesde] at hw
    split at hw
    · split at hw
      · obtain ⟨h1, h2, h3⟩ := ih [] w (fun _ h => absurd h (List.not_mem_nil _)) hw
        refine ⟨h1, h2, ?_⟩
        rw [List.nil_append] at h3
        exact h3.trans (List.IsSuffix.isInfix
          ((List.suffix_cons c cs).trans (List.suffix_append actual (c :: cs))))
      · rename_i hne
        rcases List.mem_cons.1 hw with h | h
        · rw [h]
          exact ⟨hne, hact, (List.prefix_append actual (c :: cs)).isInfix⟩
        · obtain ⟨h1, h2, h3⟩ := ih [] w (fun _ h => absurd h (List.not_mem_nil _)) h
          refine ⟨h1, h2, ?_⟩
          rw [List.nil_append] at h3
          exact h3.trans (List.IsSuffix.isInfix
            ((List.suffix_cons c cs).trans (List.suffix_append actual (c :: cs))))
    · rename_i hsp
      have hact1 : ∀ d ∈ actual ++ [c], isspace d = false := by
        intro d hd
        rcases List.mem_append.1 hd with h | h
        · exact hact d h
        · rw [List.mem_singleton.1 h]
          simpa using hsp
      obtain ⟨h1, h2, h3⟩ := ih (actual ++ [c]) w hact1 hw
      refine ⟨h1, h2, ?_⟩
      rw [List.append_assoc] at h3
      exact h3

theorem mem_palabras (s w : List Char) (hw : w ∈ palabras s) :
    w ≠ [] ∧ (∀ c ∈ w, isspace c = false) ∧ w <:+: s := by
  have h := mem_palabrasDesde s [] w (fun _ h => absurd h (List.not_mem_nil _)) hw
  rw [List.nil_append] at h
  exact h

/-- A reference found by the title trie of the index left by `indexarPelicula` is a
record with a title word of which the term is a prefix, up to letter case. -/
theorem mem_prefijo_titulos (ps : List Pelicula) (js : List Nat) (t : List Char) (i : Nat)
    (hi : i ∈ (indexarEnOrden ps js).indiceTitulos.buscarPorPrefijo t) :
    ∃ p w, ps[i]? = some p ∧ w ∈ palabras p.titulo ∧ t ≠ [] ∧ toLower t <+: toLower w := by
  obtain ⟨_, ht, _, _⟩ := rastro_indexarEnOrden ps js
  rw [ht, Trie.buscarPorPrefijo_deLlamadas] at hi
  obtain ⟨ll, hll, hsnd⟩ := List.mem_map.1 hi
  obtain ⟨hmem, hdec⟩ := List.mem_filter.1 hll
  have hpre := of_decide_eq_true hdec
  obtain ⟨j, _, hj⟩ := List.mem_flatMap.1 hmem
  unfold llamadasTitulo at hj
  cases hget : ps[j]? with
  | none => rw [hget] at hj; cases hj
  | some p =>
    rw [hget] at hj
    obtain ⟨w, hw, hwl⟩ := List.mem_map.1 hj
    subst hwl
    simp only at hsnd
    subst hsnd
    exact ⟨p, w, hget, hw, hpre.1, hpre.2⟩

/-- A reference found by the synopsis trie of the index left by `indexarPelicula`
is a record with a synopsis word of which the term is a prefix, up to letter
case. -/
theorem mem_prefijo_sinopsis (ps : List Pelicula) (js : List Nat) (t : List Char) (i : Nat)
    (hi : i ∈ (indexarEnOrden ps js).indiceSinopsis.buscarPorPrefijo t) :
    ∃ p w, ps[i]? = some p ∧ w ∈ palabras p.sinopsis ∧ t ≠ [] ∧ toLower t <+: toLower w := by
  obtain ⟨_, _, hs, _⟩ := rastro_indexarEnOrden ps js
  rw [hs, Trie.buscarPorPrefijo_deLlamadas] at hi
  obtain ⟨ll, hll, hsnd⟩ := List.mem_map.1 hi
  obtain ⟨hmem, hdec⟩ := List.mem_filter.1 hll
  have hpre := of_decide_eq_true hdec
  obtain ⟨j, _, hj⟩ := List.mem_flatMap.1 hmem
  unfold llamadasSinopsis at hj
  cases hget : ps[j]? with
  | none => rw [hget] at hj; cases hj
  | some p =>
    rw [hget] at hj
    obtain ⟨w, hw, hwl⟩ := List.mem_map.1 hj
    subst hwl
    simp only at hsnd
    subst hsnd
    exact ⟨p, w, hget, hw, hpre.1, hpre.2⟩

/-- A term with a whitespace character is not a prefix, up to letter case, of a
string without whitespace. -/
theorem no_prefijo_con_espacio (t w : List Char) (ht : ∃ c ∈ t, isspace c = true)
    (hw : ∀ c ∈ w, isspace c = false) : ¬ toLower t <+: toLower w := by
  intro hpre
  obtain ⟨c, hc, hsp⟩ := ht
  have h1 : tolower c ∈ toLower w := hpre.subset (List.mem_map.2 ⟨c, hc, rfl⟩)
  obtain ⟨d, hd, hdc⟩ := List.mem_map.1 h1
  have h2 := hw d hd
  rw [← isspace_tolower, hdc, isspace_tolower, hsp] at h2
  cases h2

/-! ## Main results on the records that a text query returns -/

/-- C23: in the index left by `indexarPelicula`, every record returned by the text
query has a score of at least 1: the lowercased term is a substring of its
lowercased title or of its lowercased synopsis, `calcularPuntuacion` returns a
value of at least 1 for it, and that value is the `relevancia` stored in it. -/
theorem C23_puntuacion_positiva (pl : Plataforma) (ps : List Pelicula) (js : List Nat)
    (fuel : Nat) (t : List Char) (hfuel : cotaCombustible ps ≤ fuel) :
    ∃ res g1, buscarPorTituloOSinopsis pl fuel (indexarEnOrden ps js) t = some (res, g1) ∧
      ∀ i ∈ res, ∃ p sc, ps[i]? = some p ∧
        (toLower t <:+: toLower p.titulo ∨ toLower t <:+: toLower p.sinopsis) ∧
        calcularPuntuacion fuel p t ps.length = some sc ∧ 1 ≤ sc ∧
        relevanciaDe g1.peliculas i = sc := by
  have hg := construido_indexarEnOrden ps js
  obtain ⟨ps1, h1, _, h3⟩ := buscar_construido pl hg fuel hfuel t
  refine ⟨_, _, h1, ?_⟩
  intro i hi
  rw [(sort_perm _ _).mem_iff] at hi
  have key : ∃ p, ps[i]? = some p ∧ t ≠ [] ∧
      (toLower t <:+: toLower p.titulo ∨ toLower t <:+: toLower p.sinopsis) := by
    rcases (mem_resultadosUnicos pl _ t i).1 hi with h | h
    · obtain ⟨p, w, hget, hw, hne, hpre⟩ := mem_prefijo_titulos ps js t i h
      exact ⟨p, hget, hne,
        Or.inl (hpre.isInfix.trans ((mem_palabras _ w hw).2.2.map tolower))⟩
    · obtain ⟨p, w, hget, hw, hne, hpre⟩ := mem_prefijo_sinopsis ps js t i h
      exact ⟨p, hget, hne,
        Or.inr (hpre.isInfix.trans ((mem_palabras _ w hw).2.2.map tolower))⟩
  obtain ⟨p, hget, hne, hinf⟩ := key
  have hlt : toLower t ≠ [] := by simpa [toLower] using hne
  have hmem : p ∈ ps := List.getElem?_mem hget
  have hpos : 1 ≤ scoreSpec p t := by
    unfold scoreSpec
    rcases hinf with h | h
    · have := (occurrences_pos_iff (toLower t) (toLower p.titulo) hlt).2 h
      omega
    · have := (occurrences_pos_iff (toLower t) (toLower p.sinopsis) hlt).2 h
      omega
  refine ⟨p, scoreSpec p t, hget, hinf, ?_, hpos, ?_⟩
  · exact calcularPuntuacion_eq fuel p t ps.length hne
      (lt_of_cotaCombustible hfuel _ hmem).1 (lt_of_cotaCombustible hfuel _ hmem).2
  · show relevanciaDe ps1 i = scoreSpec p t
    unfold relevanciaDe
    rw [h3 i, hget]
    simp [hi, conPuntuacion]

/-- Witness for C23: the two-record store of the specification and the term `lo`. -/
theorem C23_puntuacion_positiva_witness :
    cotaCombustible peliculasEjemplo ≤ 16 ∧
      ∃ res g1, buscarPorTituloOSinopsis plataformaSimple 16
          (indexarEnOrden peliculasEjemplo [0, 1]) "lo".toList = some (res, g1) ∧
        ∀ i ∈ res, ∃ p sc, peliculasEjemplo[i]? = some p ∧
          (toLower "lo".toList <:+: toLower p.titulo ∨
            toLower "lo".toList <:+: toLower p.sinopsis) ∧
          calcularPuntuacion 16 p "lo".toList peliculasEjemplo.length = some sc ∧ 1 ≤ sc ∧
          relevanciaDe g1.peliculas i = sc :=
  ⟨by decide,
    C23_puntuacion_positiva plataformaSimple peliculasEjemplo [0, 1] 16 "lo".toList
      (by decide)⟩

/-- C24: in the index left by `indexarPelicula`, the text query for a term that
contains a whitespace character returns the empty list and changes nothing,
whatever the number of loop iterations allowed: no extracted word contains
whitespace, and the term is lowercased but neither trimmed nor split. -/
theorem C24_termino_con_espacio (pl : Plataforma) (ps : List Pelicula) (js : List Nat)
    (fuel : Nat) (t : List Char) (ht : ∃ c ∈ t, isspace c = true) :
    buscarPorTituloOSinopsis pl fuel (indexarEnOrden ps js) t =
      some ([], indexarEnOrden ps js) := by
  have hR : resultadosUnicos pl (indexarEnOrden ps js) t = [] := by
    rw [List.eq_nil_iff_forall_not_mem]
    intro i hi
    rcases (mem_resultadosUnicos pl _ t i).1 hi with h | h
    · obtain ⟨p, w, _, hw, _, hpre⟩ := mem_prefijo_titulos ps js t i h
      exact no_prefijo_con_espacio t w ht (mem_palabras _ w hw).2.1 hpre
    · obtain ⟨p, w, _, hw, _, hpre⟩ := mem_prefijo_sinopsis ps js t i h
      exact no_prefijo_con_espacio t w ht (mem_palabras _ w hw).2.1 hpre
  simp only [buscarPorTituloOSinopsis, hR, puntuar, sort, List.foldr]

/-- Witness for C24: the two-record store of the specification and the two-word term
`love story`. -/
theorem C24_termino_con_espacio_witness :
    (∃ c ∈ "love story".toList, isspace c = true) ∧
      buscarPorTituloOSinopsis plataformaSimple 0 (indexarEnOrden peliculasEjemplo [0, 1])
        "love story".toList = some ([], indexarEnOrden peliculasEjemplo [0, 1]) :=
  ⟨by decide,
    C24_termino_con_espacio plataformaSimple peliculasEjemplo [0, 1] 0 "love story".toList
      (by decide)⟩

/-! ## Facts about the nodes of a built trie -/

namespace TrieNode

variable {α : Type}

theorem existeEn_nil (n : TrieNode α) : existeEn [] n = true := rfl

theorem existeEn_cons (c : Char) (cs : List Char) (n : TrieNode α) :
    existeEn (c :: cs) n =
      match n.children c with
      | none => false
      | some h => existeEn cs h := by
  unfold existeEn
  simp only [descender]
  cases n.children c <;> rfl

theorem existeEn_nuevo (p : List Char) :
    existeEn p (nuevo : TrieNode α) = decide (p = []) := by
  cases p with
  | nil => rfl
  | cons c cs => rfl

theorem existeEn_push (p : List Char) (n : TrieNode α) (e : α) :
    existeEn p (mk n.children (n.elementos ++ [e]) n.esFinDePalabra) = existeEn p n := by
  cases p with
  | nil => rfl
  | cons c cs => simp [existeEn_cons, children_mk]

/-- Inserting word `w` creates exactly the missing nodes on the path `w`. -/
theorem existeEn_insertarDesde (e : α) (w : List Char) :
    ∀ (p : List Char) (n : TrieNode α),
      existeEn p (insertarDesde e w n) = (existeEn p n || decide (p <+: w)) := by
  induction w with
  | nil =>
    intro p n
    cases n with
    | mk ch el fin =>
      cases p with
      | nil => simp [insertarDesde, existeEn_nil]
      | cons c cs => simp [insertarDesde, existeEn_cons, children_mk]
  | cons c cs ih =>
    intro p n
    cases n with
    | mk ch el fin =>
      cases p with
      | nil => simp [insertarDesde, existeEn_nil]
      | cons d ds =>
        by_cases hdc : d = c
        · subst hdc
          simp only [insertarDesde, existeEn_cons, children_mk, if_true, ih, existeEn_push]
          cases hch : ch d with
          | none =>
            by_cases hds : ds = []
            · simp [hds, existeEn_nuevo]
            · simp [hds, existeEn_nuevo, List.cons_prefix_cons]
          | some h => simp [List.cons_prefix_cons]
        · simp [insertarDesde, existeEn_cons, children_mk, hdc, List.cons_prefix_cons]

end TrieNode

namespace Trie

variable {α : Type}

/-- The reference list at any path of a trie built by a sequence of calls. -/
theorem elementosEn_deLlamadas (l : List (List Char × α)) (p : List Char) :
    TrieNode.elementosEn p (deLlamadas l).raiz =
      (l.filter (fun ll => decide (p ≠ [] ∧ p <+: toLower ll.1))).map Prod.snd := by
  induction l using List.reverseRecOn with
  | nil => simp [deLlamadas, vacio, TrieNode.elementosEn_nuevo]
  | append_singleton l ll ih =>
    rw [deLlamadas_insertar]
    show TrieNode.elementosEn p (TrieNode.insertarDesde ll.2 (toLower ll.1) (deLlamadas l).raiz) = _
    rw [TrieNode.elementosEn_insertarDesde, ih, List.filter_append, List.map_append]
    by_cases h : p ≠ [] ∧ p <+: toLower ll.1
    · simp [List.filter_cons, h]
    · simp [List.filter_cons, h]

/-- A node of a trie built by a sequence of calls, other than the root, lies on the
path of an inserted word. -/
theorem existeEn_deLlamadas (l : List (List Char × α)) (p : List Char)
    (h : TrieNode.existeEn p (deLlamadas l).raiz = true) :
    p = [] ∨ ∃ ll ∈ l, p <+: toLower ll.1 := by
  induction l using List.reverseRecOn with
  | nil =>
    have h1 : TrieNode.existeEn p (TrieNode.nuevo : TrieNode α) = true := h
    rw [TrieNode.existeEn_nuevo] at h1
    exact Or.inl (of_decide_eq_true h1)
  | append_singleton l ll ih =>
    rw [deLlamadas_insertar] at h
    have h1 : TrieNode.existeEn p
        (TrieNode.insertarDesde ll.2 (toLower ll.1) (deLlamadas l).raiz) = true := h
    rw [TrieNode.existeEn_insertarDesde, Bool.or_eq_true] at h1
    rcases h1 with h1 | h1
    · rcases ih h1 with h2 | ⟨x, hx, hpx⟩
      · exact Or.inl h2
      · exact Or.inr ⟨x, List.mem_append_left _ hx, hpx⟩
    · exact Or.inr ⟨ll, List.mem_append_right _ (List.mem_singleton.2 rfl),
        of_decide_eq_true h1⟩

end Trie

/-! ## Main result on longer prefixes -/

/-- C25: in a trie built from the empty trie by `insertar` calls, for a non-empty
prefix `p` and a character `c` the result of `buscarPorPrefijo` for `p` followed by
`c` is a sublist (same order, with multiplicity) of the result for `p`; and every
node other than the root, that is every node at the end of a non-empty path from
the root, holds at least one reference. -/
theorem C25_prefijo_mas_largo {α : Type} (llamadas : List (List Char × α)) (p : List Char)
    (c : Char) (hp : p ≠ []) :
    ((Trie.deLlamadas llamadas).buscarPorPrefijo (p ++ [c])).Sublist
        ((Trie.deLlamadas llamadas).buscarPorPrefijo p) ∧
      ∀ (camino : List Char) (nodo : TrieNode α), camino ≠ [] →
        TrieNode.descender camino (Trie.deLlamadas llamadas).raiz = some nodo →
        nodo.elementos ≠ [] := by
  constructor
  · rw [Trie.buscarPorPrefijo_deLlamadas, Trie.buscarPorPrefijo_deLlamadas]
    apply List.Sublist.map
    have hpc : p ++ [c] ≠ [] := by simp
    have himp : ∀ ll : List Char × α,
        decide (p ++ [c] ≠ [] ∧ toLower (p ++ [c]) <+: toLower ll.1) =
          (decide (p ++ [c] ≠ [] ∧ toLower (p ++ [c]) <+: toLower ll.1) &&
            decide (p ≠ [] ∧ toLower p <+: toLower ll.1)) := by
      intro ll
      by_cases h : p ++ [c] ≠ [] ∧ toLower (p ++ [c]) <+: toLower ll.1
      · have h2 : p ≠ [] ∧ toLower p <+: toLower ll.1 := by
          refine ⟨hp, List.IsPrefix.trans ?_ h.2⟩
          unfold toLower
          rw [List.map_append]
          exact List.prefix_append _ _
        rw [decide_eq_true h, decide_eq_true h2]
        rfl
      · rw [decide_eq_false h]
        rfl
    have hfil : llamadas.filter
          (fun ll => decide (p ++ [c] ≠ [] ∧ toLower (p ++ [c]) <+: toLower ll.1)) =
        (llamadas.filter (fun ll => decide (p ≠ [] ∧ toLower p <+: toLower ll.1))).filter
          (fun ll => decide (p ++ [c] ≠ [] ∧ toLower (p ++ [c]) <+: toLower ll.1)) := by
      rw [List.filter_filter]
      exact List.filter_congr (fun ll _ => himp ll)
    rw [hfil]
    exact List.filter_sublist _
  · intro camino nodo hcam hdesc
    have hex : TrieNode.existeEn camino (Trie.deLlamadas llamadas).raiz = true := by
      unfold TrieNode.existeEn
      rw [hdesc]
    have hel : TrieNode.elementosEn camino (Trie.deLlamadas llamadas).raiz = nodo.elementos := by
      unfold TrieNode.elementosEn
      rw [hdesc]
    rcases Trie.existeEn_deLlamadas llamadas camino hex with h | ⟨ll, hll, hpre⟩
    · exact absurd h hcam
    · rw [← hel, Trie.elementosEn_deLlamadas]
      intro hnil
      have hmem : ll.2 ∈ (llamadas.filter
          (fun ll => decide (camino ≠ [] ∧ camino <+: toLower ll.1))).map Prod.snd :=
        List.mem_map.2 ⟨ll, List.mem_filter.2 ⟨hll, decide_eq_true ⟨hcam, hpre⟩⟩, rfl⟩
      rw [hnil] at hmem
      cases hmem

/-- Witness for C25: three calls and the prefix `lo` extended by `v`. -/
theorem C25_prefijo_mas_largo_witness :
    "lo".toList ≠ [] ∧
      (((Trie.deLlamadas [("Love".toList, 0), ("lo".toList, 1),
          ("war".toList, 2)]).buscarPorPrefijo ("lo".toList ++ ['v'])).Sublist
        ((Trie.deLlamadas [("Love".toList, 0), ("lo".toList, 1),
          ("war".toList, 2)]).buscarPorPrefijo "lo".toList) ∧
      ∀ (camino : List Char) (nodo : TrieNode Nat), camino ≠ [] →
        TrieNode.descender camino
          (Trie.deLlamadas [("Love".toList, 0), ("lo".toList, 1), ("war".toList, 2)]).raiz =
            some nodo →
        nodo.elementos ≠ []) :=
  ⟨by decide,
    C25_prefijo_mas_largo [("Love".toList, 0), ("lo".toList, 1), ("war".toList, 2)]
      "lo".toList 'v' (by decide)⟩

end Progra3
